import Mathlib

/-!
Verification development for the byto download manager.

The definitions below are shallow embeddings of the Go source files:
  internal/parser/ytdlp_download_parser.go  (YTDLPDownloadParser.Parse)
  internal/domain/media.go                  (Media and its operations)
  internal/command/download_command.go      (DownloadCommand.Execute)
  internal/builder/ytdlp_builder.go         (YTDLPBuilder)
  internal/queue  (Queue)                   and app.go (App.StartDownloads).

Strings are modelled as `List Char`.  Go `int64`/`int` values are modelled
as `Int` or `Nat` (every integer produced on the modelled paths is
non-negative and far below 2^63 overflow except where noted in comments).
-/

namespace Byto

/-! ## Character classes

`wsRE` is RE2's `\s`, i.e. `[\t\n\f\r ]` (note: no vertical tab).
`isDigitC` is RE2's `\d`, i.e. `[0-9]`.
`goSpace` is Go's `unicode.IsSpace` (Unicode white space), used by
`strings.TrimSpace`. -/

def wsRE (c : Char) : Bool :=
  c = ' ' || c = '\t' || c = '\n' || c = '\x0c' || c = '\r'

def isDigitC (c : Char) : Bool :=
  48 ≤ c.toNat && c.toNat ≤ 57

def goSpace (c : Char) : Bool :=
  let n := c.toNat
  (9 ≤ n && n ≤ 13) || n = 32 || n = 0x85 || n = 0xa0 || n = 0x1680 ||
  (0x2000 ≤ n && n ≤ 0x200a) || n = 0x2028 || n = 0x2029 || n = 0x202f ||
  n = 0x205f || n = 0x3000

/-- Go's `strings.TrimSpace`: drop Unicode white space from both ends. -/
def goTrim (s : List Char) : List Char :=
  ((s.dropWhile goSpace).reverse.dropWhile goSpace).reverse

/-! ## The progress-line grammar (ytdlp_download_parser.go)

The Go parser matches the regular expression

  `\[byto\]\s+(.+?)\s+\[downloaded\]\s+(\d+|NA)\s+\[total\]\s+(\d+|NA)\s+\[frag\]\s+(\d+|NA)\s+\[frags\]\s+(\d+|NA)$`

against the trimmed input with `FindStringSubmatch` (leftmost-first
semantics, end-anchored, not start-anchored).  The functions below
implement exactly that search:
  * `findMatch` scans candidate start positions left to right;
  * at a start position, `\s+` before the title is greedy with
    backtracking (`tryWs` tries the longest white-space run first, then
    shorter ones, because the non-greedy title `(.+?)` may itself consume
    white space);
  * `titleLoop` grows the title one character at a time (non-greedy);
  * everything after the title is deterministic: each `\s+` there is
    followed by a literal `[` or by a digit/`N`, so only the maximal
    white-space run can match, and `(\d+|NA)` is decided by the first
    character. -/

def mByto : List Char := "[byto]".toList
def mDownloaded : List Char := "[downloaded]".toList
def mTotal : List Char := "[total]".toList
def mFrag : List Char := "[frag]".toList
def mFrags : List Char := "[frags]".toList
def naTok : List Char := "NA".toList

/-- Strip a literal off the front of the input, or fail. -/
def stripLit : List Char → List Char → Option (List Char)
  | [], s => some s
  | _ :: _, [] => none
  | a :: as, b :: bs => if a = b then stripLit as bs else none

/-- Match `\s+` followed by a non-white-space continuation: consumes the
maximal run of RE2 white space, requiring at least one character. -/
def dropWs1 : List Char → Option (List Char)
  | [] => none
  | c :: rest => if wsRE c then some (rest.dropWhile wsRE) else none

/-- Match `(\d+|NA)`: a maximal non-empty run of digits, else the literal
`NA`.  The two branches are decided by the first character. -/
def fieldTok (s : List Char) : Option (List Char × List Char) :=
  let ds := s.takeWhile isDigitC
  if ds.isEmpty then
    match stripLit naTok s with
    | some rest => some (naTok, rest)
    | none => none
  else some (ds, s.dropWhile isDigitC)

/-- Match one `\[marker\]\s+(\d+|NA)` group: the literal marker, at least
one white-space character, then a field. -/
def seg (lit s : List Char) : Option (List Char × List Char) := do
  let s ← stripLit lit s
  let s ← dropWs1 s
  fieldTok s

/-- Match `\[downloaded\]\s+(\d+|NA)\s+\[total\]\s+(\d+|NA)\s+\[frag\]\s+(\d+|NA)\s+\[frags\]\s+(\d+|NA)$`
(the four marker/field groups, separated by `\s+`, ending exactly at the
end of the input). -/
def matchTail (s : List Char) : Option (List Char × List Char × List Char × List Char) := do
  let (d, s) ← seg mDownloaded s
  let s ← dropWs1 s
  let (t, s) ← seg mTotal s
  let s ← dropWs1 s
  let (f, s) ← seg mFrag s
  let s ← dropWs1 s
  let (c, s) ← seg mFrags s
  if s.isEmpty then some (d, t, f, c) else none

/-- Non-greedy title: grow the captured title one character at a time
(each must not be a newline, as RE2 `.` excludes `\n`), and after each
character try to match `\s+` followed by the tail. -/
def titleLoop (acc : List Char) : List Char →
    Option (List Char × (List Char × List Char × List Char × List Char))
  | [] => none
  | ch :: rest =>
    if ch = '\n' then none
    else
      match dropWs1 rest >>= matchTail with
      | some r => some (acc ++ [ch], r)
      | none => titleLoop (acc ++ [ch]) rest

/-- Backtracking for the greedy `\s+` before the title: try using `k`
white-space characters for it (longest first, down to one). -/
def tryWs (s : List Char) : Nat →
    Option (List Char × (List Char × List Char × List Char × List Char))
  | 0 => none
  | k + 1 =>
    match titleLoop [] (s.drop (k + 1)) with
    | some r => some r
    | none => tryWs s k

/-- Try to match the whole pattern starting exactly here. -/
def matchAt (s : List Char) :
    Option (List Char × (List Char × List Char × List Char × List Char)) := do
  let s1 ← stripLit mByto s
  tryWs s1 (s1.takeWhile wsRE).length

/-- Leftmost search: try every start position from the left. -/
def findMatch : List Char →
    Option (List Char × (List Char × List Char × List Char × List Char))
  | [] => none
  | s@(_ :: rest) =>
    match matchAt s with
    | some r => some r
    | none => findMatch rest

/-- Result of a successful parse: the Go code returns a map with exactly
the five keys title, downloaded_bytes, total_bytes, fragment_index,
fragment_count. -/
structure ParsedRec where
  title : List Char
  downloadedBytes : List Char
  totalBytes : List Char
  fragmentIndex : List Char
  fragmentCount : List Char
deriving DecidableEq, Repr

/-- Model of `YTDLPDownloadParser.Parse` on a character list: trim, run
the regex search, and on success build the result map, trimming the
captured title. -/
def parseCore (input : List Char) : Except String ParsedRec :=
  match findMatch (goTrim input) with
  | none => .error "failed to parse log line: format mismatch"
  | some (ttl, (d, t, f, c)) =>
    .ok { title := goTrim ttl, downloadedBytes := d, totalBytes := t,
          fragmentIndex := f, fragmentCount := c }

/-- Model of `YTDLPDownloadParser.Parse` on a `String`. -/
def parseYTDLP (input : String) : Except String ParsedRec :=
  parseCore input.toList

/-! ## Declarative grammar

A declarative reading of the regular expression, used to characterise
exactly when `parseYTDLP` succeeds. -/

/-- A non-empty run of RE2 white space (`\s+`). -/
def WsRun (w : List Char) : Prop := w ≠ [] ∧ ∀ c ∈ w, wsRE c

/-- A non-empty title (`(.+?)`): any characters except newline. -/
def TitleOk (t : List Char) : Prop := t ≠ [] ∧ ∀ c ∈ t, ¬ c = '\n'

/-- A numeric field (`(\d+|NA)`): a non-empty digit string or the literal
`NA`. -/
def FieldOk (f : List Char) : Prop := (f ≠ [] ∧ ∀ c ∈ f, isDigitC c) ∨ f = naTok

/-- Decomposition matched by everything after the title: the four marked
fields, each preceded by white space, ending exactly at the end of the
line. -/
def TailShape (s d t f c : List Char) : Prop :=
  ∃ w1 w2 w3 w4 w5 w6 w7,
    s = mDownloaded ++ w1 ++ d ++ w2 ++ mTotal ++ w3 ++ t ++ w4 ++
        mFrag ++ w5 ++ f ++ w6 ++ mFrags ++ w7 ++ c ∧
    WsRun w1 ∧ WsRun w2 ∧ WsRun w3 ∧ WsRun w4 ∧ WsRun w5 ∧ WsRun w6 ∧
    WsRun w7 ∧ FieldOk d ∧ FieldOk t ∧ FieldOk f ∧ FieldOk c

/-- The five-marker grammar matched starting exactly at `s` and reaching
the end of `s`. -/
def GrammarAt (s : List Char) : Prop :=
  ∃ w0 ttl wT tl d t f c,
    s = mByto ++ w0 ++ ttl ++ wT ++ tl ∧ WsRun w0 ∧ TitleOk ttl ∧
    WsRun wT ∧ TailShape tl d t f c

/-- The grammar matched from some position of `s` onward (the regular
expression is anchored at the end but not at the start, so arbitrary
content may precede the matched part). -/
def Grammar (s : List Char) : Prop :=
  ∃ pre suf, s = pre ++ suf ∧ GrammarAt suf

/-- A list with no leading and no trailing Unicode white space (the shape
of the title stored in the result, which the Go code passes through
`strings.TrimSpace`). -/
def Trimmed (t : List Char) : Prop :=
  (∀ c, t.head? = some c → goSpace c = false) ∧
  (∀ c, t.getLast? = some c → goSpace c = false)

/-! ## Media records (internal/domain/media.go)

A `Media` value with its mutable fields.  The three callback fields are
modelled by booleans recording whether a callback is registered; each
mutating operation appends an event iff the corresponding callback is
registered, mirroring the `go callback(...)` dispatches in media.go. -/

inductive DStatus where
  | pending
  | inProgress
  | completed
  | failed
  | paused
deriving DecidableEq, Repr

inductive MEvent where
  | statusChanged (s : DStatus)
  | progressed
  | titleChanged
deriving DecidableEq, Repr

structure MediaState where
  id : String
  title : List Char
  totalBytes : Int
  url : String
  filePath : List Char
  status : DStatus
  percentage : Int
  downloadedBytes : Int
  logs : List (List Char)
  token : Option Nat
  onProgress : Bool
  onStatusChange : Bool
  onTitleChange : Bool
  events : List MEvent
deriving DecidableEq, Repr

/-- Media.AppendLog: append to the log and fire the progress callback. -/
def appendLog (m : MediaState) (line : List Char) : MediaState :=
  { m with logs := m.logs ++ [line],
           events := m.events ++ if m.onProgress then [.progressed] else [] }

/-- Media.SetTitle: store the title and fire the title callback. -/
def setTitle (m : MediaState) (t : List Char) : MediaState :=
  { m with title := t,
           events := m.events ++ if m.onTitleChange then [.titleChanged] else [] }

/-- Media.UpdateProgress: store downloaded bytes, total bytes and the
percentage (unconditionally overwriting all three), and fire the
progress callback. -/
def updateProgress (m : MediaState) (d t p : Int) : MediaState :=
  { m with downloadedBytes := d, totalBytes := t, percentage := p,
           events := m.events ++ if m.onProgress then [.progressed] else [] }

/-- Media.SetStatus: store the status and fire the status callback. -/
def setStatus (m : MediaState) (st : DStatus) : MediaState :=
  { m with status := st,
           events := m.events ++
             if m.onStatusChange then [.statusChanged st] else [] }

/-! ## Line processing (DownloadCommand.Execute, processOutput closure) -/

/-- Numeric value of a digit string. -/
def natOfDigits (s : List Char) : Nat :=
  s.foldl (fun n c => 10 * n + (c.toNat - 48)) 0

/-- Model of `strconv.ParseInt(s, 10, 64)` with the error ignored, on the
strings that reach it in processOutput (all-digit strings, `NA`, or the
empty string): a digit string yields its value clamped to the int64
maximum (ParseInt returns MaxInt64 together with ErrRange on overflow,
and the error is discarded); anything non-numeric yields 0. -/
def parseIntGo (s : List Char) : Int :=
  if s ≠ [] ∧ s.all isDigitC then
    min (natOfDigits s : Int) (2 ^ 63 - 1)
  else 0

/-! ### IEEE-754 binary64 model

processOutput computes `int((float64(n) / float64(d)) * 100)` with Go
float64 (IEEE-754 binary64) arithmetic. Every value met on that
expression's path is zero or a positive finite normal float: the
operands are `strconv.ParseInt` results, so 0 ≤ n, d ≤ 2^63 − 1 and the
branch guards give d ≥ 1; hence the quotient lies in [2^−63, 2^63] and
the product in [2^−57, 2^70], far inside the normal range (no
subnormals, no overflow to infinity). A positive float is represented
as a normalized significand/exponent pair sig·2^exp with
2^52 ≤ sig < 2^53, and every operation rounds to nearest, ties to even,
exactly as IEEE-754 requires for the conversion, the division and the
multiplication (100 is exactly representable, so the product rounds the
exact value sig·100·2^exp). -/

/-- Number of binary digits of a natural number (the fuel bounds the
recursion depth; 256 covers every number formed below). -/
def bitlenAux : Nat → Nat → Nat
  | 0, _ => 0
  | fuel+1, n => if n = 0 then 0 else bitlenAux fuel (n / 2) + 1

def bitlen (n : Nat) : Nat := bitlenAux 256 n

/-- The positive rational num/den rounded to the nearest integer, ties
to even. -/
def rne (num den : Nat) : Nat :=
  let q := num / den
  let r := num % den
  if 2 * r < den then q
  else if den < 2 * r then q + 1
  else if q % 2 = 0 then q else q + 1

/-- The rational p/q scaled by 2^(−e) and rounded to the nearest
integer, ties to even. -/
def sigAt (p q : Nat) (e : Int) : Nat :=
  if 0 ≤ e then rne p (q * 2 ^ e.toNat)
  else rne (p * 2 ^ (-e).toNat) q

/-- The positive rational p/q (p, q ≥ 1) rounded to binary64 precision:
a pair (sig, exp) with 2^52 ≤ sig < 2^53 whose value sig·2^exp is the
round-to-nearest-even binary64 approximation of p/q. With L the bit
lengths, p/q lies strictly between 2^(L p − L q − 1) and
2^(L p − L q + 1), so the scaled value p/q·2^(−e0) lies in (2^52, 2^54):
when the first rounding reaches 2^53 the value belongs to the next
binade (or rounds up across its boundary) and is re-rounded one
position higher, and a second boundary hit yields the exact power
2^52·2^(e0 + 2). -/
def roundFloat (p q : Nat) : Nat × Int :=
  let e0 : Int := (bitlen p : Int) - (bitlen q : Int) - 53
  let m0 := sigAt p q e0
  if 2 ^ 53 ≤ m0 then
    let m1 := sigAt p q (e0 + 1)
    if 2 ^ 53 ≤ m1 then (2 ^ 52, e0 + 2) else (m1, e0 + 1)
  else (m0, e0)

/-- A binary64 value in the range arising here: zero, or a positive
finite normal float sig·2^exp with 2^52 ≤ sig < 2^53. -/
inductive F64 where
  | zero
  | pos (sig : Nat) (exp : Int)
deriving DecidableEq, Repr

/-- Go `float64(n)` for a nonnegative integer: the correctly rounded
binary64 approximation of n (exact for n < 2^53). -/
def f64OfNat (n : Nat) : F64 :=
  if n = 0 then .zero else
    let r := roundFloat n 1
    .pos r.1 r.2

/-- Correctly rounded binary64 division of the values met here:
(m1·2^e1)/(m2·2^e2) = (m1/m2)·2^(e1−e2), and rounding commutes with the
exact power-of-two scaling. A zero divisor does not occur at the call
sites (both guards in processOutput require a positive divisor). -/
def f64Div : F64 → F64 → F64
  | .zero, _ => .zero
  | .pos _ _, .zero => .zero
  | .pos m1 e1, .pos m2 e2 =>
    let r := roundFloat m1 m2
    .pos r.1 (r.2 + e1 - e2)

/-- Correctly rounded binary64 multiplication by the exact constant
100.0: the exact product is (m·100)·2^e. -/
def f64Mul100 : F64 → F64
  | .zero => .zero
  | .pos m e =>
    let r := roundFloat (m * 100) 1
    .pos r.1 (r.2 + e)

/-- Go `int(f)` on a 64-bit target: truncation toward zero (for the
nonnegative values met here, the floor); when the truncated value does
not fit in int64 the conversion is implementation-defined, and the gc
compiler on amd64 produces −2^63 (the CVTTSD2SI integer indefinite).
For exp < 0 the value is below 2^53, always in range. -/
def goInt64OfF64 : F64 → Int
  | .zero => 0
  | .pos m e =>
    if 0 ≤ e then
      if m * 2 ^ e.toNat < 2 ^ 63 then ((m * 2 ^ e.toNat : Nat) : Int)
      else -(2 ^ 63)
    else ((m / 2 ^ (-e).toNat : Nat) : Int)

/-- Percentage computed by processOutput on a successfully parsed line:
`int((float64(n) / float64(d)) * 100)` in IEEE-754 binary64 arithmetic.
The operands are parseIntGo results, so 0 ≤ n (making `.toNat` the
identity on the value) and the branch guards give 0 < d. This can
differ from the exact floor n·100/d once quantities exceed 2^53: for
n = 1000000000000001, d = 3 the program computes 33333333333333368
while the exact floor is 33333333333333366. -/
def pctOf (n d : Int) : Int :=
  goInt64OfF64 (f64Mul100 (f64Div (f64OfNat n.toNat) (f64OfNat d.toNat)))

/-- The body executed by processOutput after a successful parse: update
the title when it is non-empty, not the `NA` placeholder and different
from the current one; compute downloaded and total bytes; compute the
percentage byte-based when total > 0, else fragment-based when both
fragment fields are numeric and the count is positive, else leave the
local `percentage` variable at its initial value 0; finally call
UpdateProgress with the three values. -/
def processParsed (m : MediaState) (r : ParsedRec) : MediaState :=
  let m1 := if r.title ≠ [] ∧ r.title ≠ naTok ∧ r.title ≠ m.title then
      setTitle m r.title
    else m
  let downloaded := parseIntGo r.downloadedBytes
  let total : Int := if r.totalBytes ≠ naTok ∧ r.totalBytes ≠ [] then
      parseIntGo r.totalBytes
    else 0
  let percentage : Int :=
    if 0 < total then pctOf downloaded total
    else if r.fragmentIndex ≠ naTok ∧ r.fragmentCount ≠ naTok ∧
        r.fragmentIndex ≠ [] ∧ r.fragmentCount ≠ [] then
      (if 0 < parseIntGo r.fragmentCount then
        pctOf (parseIntGo r.fragmentIndex) (parseIntGo r.fragmentCount)
      else 0)
    else 0
  updateProgress m1 downloaded total percentage

/-- One iteration of the scanner loop in processOutput: normalise (the
UTF-8 re-encoding is the identity on valid text), trim, skip blank
lines, append to the log, then attempt a parse and on success apply the
progress update. -/
def processLine (m : MediaState) (raw : List Char) : MediaState :=
  let line := goTrim raw
  if line = [] then m
  else
    let m2 := appendLog m line
    match parseCore line with
    | .ok r => processParsed m2 r
    | .error _ => m2

/-- The record created by App.AddToQueue: status Pending, zero progress,
empty log, no cancellation context, no callbacks registered yet. -/
def initialMedia (id url : String) (path : List Char) : MediaState :=
  { id := id, title := "Pending...".toList, totalBytes := 0, url := url,
    filePath := path, status := .pending, percentage := 0,
    downloadedBytes := 0, logs := [], token := none, onProgress := false,
    onStatusChange := false, onTitleChange := false, events := [] }

/-- Record states reachable through the operations named in the data
model: enqueueing a fresh record, appending a log line, and the per-line
processing done by the download task (which appends the line and applies
the parsed progress update). -/
inductive ReachableMedia : MediaState → Prop
  | enqueue (id url : String) (path : List Char) :
      ReachableMedia (initialMedia id url path)
  | append (m : MediaState) (line : List Char) :
      ReachableMedia m → ReachableMedia (appendLog m line)
  | line (m : MediaState) (raw : List Char) :
      ReachableMedia m → ReachableMedia (processLine m raw)

/-! ## Outcome mapping (DownloadCommand.Execute tail and the worker loop
in App.StartDownloads) -/

/-- The distinguished result of one run as observed by the caller of
Execute: clean exit, the cancellation signal (`context.Canceled`), or an
ordinary error carrying its message. -/
inductive RunResult where
  | success
  | cancelled
  | failure (msg : List Char)
deriving DecidableEq, Repr

/-- Exit information of one subprocess run: an error before `Wait`
(pipe creation or `Start` failed), the error returned by `Wait`, and
whether the run's context was cancelled when the failing call examined
it. A pipe-creation failure is never the `context.Canceled` value, so
it falls in the uncancelled spawn-error case; `Start` on an
already-cancelled context returns `ctx.Err()`, the `context.Canceled`
value itself. -/
structure ExitInfo where
  spawnError : Option (List Char)
  waitError : Option (List Char)
  ctxCancelled : Bool
deriving DecidableEq, Repr

/-- The tail of DownloadCommand.Execute. A spawn failure returns the
`Start` error unchanged with no status change or log append; when the
run's context was already cancelled at that point, `exec.Cmd.Start`
returns `ctx.Err()` — the `context.Canceled` value itself — so the
caller receives the distinguished cancellation signal. A `Wait` error
returns `context.Canceled` when the context was cancelled, else sets
status Failed and returns the error; a clean exit sets status
Completed. -/
def executeFinish (m : MediaState) (e : ExitInfo) : MediaState × RunResult :=
  match e.spawnError with
  | some msg =>
    if e.ctxCancelled then (m, .cancelled) else (m, .failure msg)
  | none =>
    match e.waitError with
    | some msg =>
      if e.ctxCancelled then (m, .cancelled)
      else (setStatus m .failed, .failure msg)
    | none => (setStatus m .completed, .success)

/-- The error handling in the worker loop of App.StartDownloads: the
cancellation signal sets status Paused; any other error sets status
Failed and appends the formatted error text to the log. -/
def workerHandle (p : MediaState × RunResult) : MediaState :=
  match p.2 with
  | .cancelled => setStatus p.1 .paused
  | .failure msg =>
    appendLog (setStatus p.1 .failed) ("Download failed: ".toList ++ msg)
  | .success => p.1

/-- One item's run as seen end to end: Execute's outcome mapping followed
by the worker's error handling; the second component is the result the
worker observed. -/
def runItem (m : MediaState) (e : ExitInfo) : MediaState × RunResult :=
  let p := executeFinish m e
  (workerHandle p, p.2)

/-- Number of status-change callback invocations with a given status. -/
def statusEventCount (m : MediaState) (st : DStatus) : Nat :=
  (m.events.filter (fun ev => ev = MEvent.statusChanged st)).length

/-! ## Bulk start (App.StartDownloads) -/

/-- Startable statuses selected by StartDownloads. -/
def startable (st : DStatus) : Bool :=
  st = DStatus.pending || st = DStatus.failed || st = DStatus.paused

/-- Attaching a fresh run to a record in the selection loop: a new
cancellation context (token `g`) replaces any previous one, and the
three observer callbacks are (re)attached. -/
def armItem (m : MediaState) (g : Nat) : MediaState :=
  { m with token := some g, onProgress := true, onStatusChange := true,
           onTitleChange := true }

/-- The selection loop of StartDownloads: walk the queue snapshot in
order, keep the items whose status is Pending, Failed or Paused, and give
each kept item a fresh cancellation token (`g` is the next unused token
generation; each selected item consumes one). -/
def selectArm (g : Nat) : List MediaState → Nat × List MediaState
  | [] => (g, [])
  | m :: rest =>
    if startable m.status then
      let p := selectArm (g + 1) rest
      (p.1, armItem m g :: p.2)
    else selectArm g rest

/-- Arm every item of a list with consecutive token generations. -/
def armAll (g : Nat) : List MediaState → List MediaState
  | [] => []
  | m :: rest => armItem m g :: armAll (g + 1) rest

/-- Outcome of one StartDownloads call: the FIFO job queue (the buffered
channel filled in snapshot order) and the number of worker goroutines
started. -/
structure StartOutcome where
  nextGen : Nat
  jobs : List MediaState
  workers : Nat
deriving DecidableEq, Repr

/-- Model of App.StartDownloads up to the point where workers start
pulling jobs.  The semaphore channel is created first with capacity
`parallel`; in Go, `make(chan struct{}, n)` panics at run time
(`makechan: size out of range`) when `n` is negative, which is modelled
by the error case.  Then the startable items are selected and armed in
snapshot order, placed on the job channel in that order, and `parallel`
worker loops are started. -/
def startDownloads (parallel : Int) (g : Nat) (snapshot : List MediaState) :
    Except String StartOutcome :=
  if parallel < 0 then .error "makechan: size out of range"
  else
    let p := selectArm g snapshot
    .ok { nextGen := p.1, jobs := p.2, workers := parallel.toNat }

/-! ## Format selection (internal/builder/ytdlp_builder.go, Quality) -/

/-- The Go `domain.VideoQuality` constants (an integer enumeration,
values checked by the domain tests: Quality360p = 0 … Quality2160p = 5). -/
def quality360p : Int := 0
def quality480p : Int := 1
def quality720p : Int := 2
def quality1080p : Int := 3
def quality1440p : Int := 4
def quality2160p : Int := 5

/-- The format-selector expression chosen by the switch in
YTDLPBuilder.Quality; the default branch covers every unrecognized
value. -/
def qualityFormatExpr (q : Int) : String :=
  if q = quality360p then "bestvideo[height<=360]+bestaudio/best[height<=360]/best"
  else if q = quality480p then "bestvideo[height<=480]+bestaudio/best[height<=480]/best"
  else if q = quality720p then "bestvideo[height<=720]+bestaudio/best[height<=720]/best"
  else if q = quality1080p then "bestvideo[height<=1080]+bestaudio/best[height<=1080]/best"
  else if q = quality1440p then "bestvideo[height<=1440]+bestaudio/best[height<=1440]/best"
  else if q = quality2160p then "bestvideo[height<=2160]+bestaudio/best[height<=2160]/best"
  else "bestvideo+bestaudio/best"

/-- YTDLPBuilder.Quality appends `-f` and the selected expression to the
accumulated argument list. -/
def builderQuality (args : List String) (q : Int) : List String :=
  args ++ ["-f", qualityFormatExpr q]

/-- Substring test on character lists. -/
def hasSub (pat : List Char) : List Char → Bool
  | [] => pat.isEmpty
  | s@(_ :: t) => pat.isPrefixOf s || hasSub pat t

/-- Suffix test on character lists. -/
def endsWithL (pat s : List Char) : Bool :=
  pat.reverse.isPrefixOf s.reverse

/-! ## Queue under a slice memory model (internal/queue/queue.go)

Go slices alias a backing array: Queue.GetAll copies the element
pointers into a freshly allocated array, Queue.Remove shifts elements
left in place inside the queue's backing array, and append writes in
place while capacity suffices, else reallocates.  To make the claimed
frame properties meaningful, the heap of backing arrays is modelled
explicitly: `Mem.arrays` maps array ids to contents (record pointers as
`Nat`), and `Mem.recs` maps each record pointer to its immutable id
string (the only record field the queue reads).  A slice is an array id
plus length and capacity; every slice built in queue.go starts at array
offset 0. -/

structure Mem where
  arrays : List (List Nat)
  recs : List String
deriving DecidableEq, Repr

structure Slice where
  arr : Nat
  len : Nat
  cap : Nat
deriving DecidableEq, Repr

def arrOf (mem : Mem) (s : Slice) : List Nat := mem.arrays.getD s.arr []

/-- The elements of a slice: the first `len` entries of its array. -/
def view (mem : Mem) (s : Slice) : List Nat := (arrOf mem s).take s.len

/-- The record id a pointer refers to (ids are immutable once set). -/
def refId (mem : Mem) (r : Nat) : String := mem.recs.getD r ""

def allocArr (mem : Mem) (a : List Nat) : Mem × Nat :=
  ({ mem with arrays := mem.arrays ++ [a] }, mem.arrays.length)

def writeArr (mem : Mem) (i : Nat) (a : List Nat) : Mem :=
  { mem with arrays := mem.arrays.set i a }

/-- Go append of one element: write in place at index `len` while the
capacity allows, else allocate a larger array holding a copy (Go roughly
doubles small capacities; the exact growth constant is irrelevant to the
claims). -/
def goAppend (mem : Mem) (s : Slice) (x : Nat) : Mem × Slice :=
  if s.len < s.cap then
    (writeArr mem s.arr ((arrOf mem s).set s.len x),
     { s with len := s.len + 1 })
  else
    ((allocArr mem (view mem s ++ [x] ++
        List.replicate ((if s.cap = 0 then 1 else 2 * s.cap) - (s.len + 1)) 0)).1,
     { arr := mem.arrays.length, len := s.len + 1,
       cap := if s.cap = 0 then 1 else 2 * s.cap })

/-- Go `append(a[:i], a[i+1:]...)` in Queue.Remove: shift the elements
after position `i` one slot left inside the same backing array (entries
from the old last element on keep their previous values) and shorten the
slice by one. -/
def removeAt (mem : Mem) (s : Slice) (i : Nat) : Mem × Slice :=
  (writeArr mem s.arr ((arrOf mem s).take i ++
      ((arrOf mem s).drop (i + 1)).take (s.len - i - 1) ++
      (arrOf mem s).drop (s.len - 1)),
   { s with len := s.len - 1 })

/-- A queue value: the shared memory together with the items slice. -/
structure QState where
  mem : Mem
  q : Slice
deriving DecidableEq, Repr

/-- NewQueue over an empty heap: one empty backing array
(make with length 0). -/
def initialQ : QState :=
  { mem := { arrays := [[]], recs := [] },
    q := { arr := 0, len := 0, cap := 0 } }

/-- Queue.Add of a record pointer: no-op when the record's id is empty,
else Go append to the items slice. -/
def queueAdd (st : QState) (rid : Nat) : QState :=
  if refId st.mem rid = "" then st
  else
    let p := goAppend st.mem st.q rid
    { mem := p.1, q := p.2 }

/-- Queue.Remove: drop the first record whose id matches, or report
NotFound with the memory untouched. -/
def queueRemove (st : QState) (id : String) : Except String QState :=
  match (view st.mem st.q).findIdx? (fun r => refId st.mem r = id) with
  | none => .error "media with given ID not found"
  | some i =>
    let p := removeAt st.mem st.q i
    .ok { mem := p.1, q := p.2 }

/-- Queue.GetAll: allocate a fresh array of exactly the current length,
copy the element pointers into it, and hand out that independent
snapshot slice. -/
def getAll (st : QState) : QState × Slice :=
  ({ mem := (allocArr st.mem (view st.mem st.q)).1, q := st.q },
   { arr := st.mem.arrays.length, len := st.q.len, cap := st.q.len })

/-- App-level operations driving the queue: AddToQueue allocates a fresh
record with the given id and appends its pointer; RemoveFromQueue
removes by id (a failed remove leaves the state unchanged). -/
inductive QOp where
  | add (id : String)
  | remove (id : String)
deriving DecidableEq, Repr

def applyOp (st : QState) : QOp → QState
  | .add id =>
    queueAdd { mem := { arrays := st.mem.arrays, recs := st.mem.recs ++ [id] },
               q := st.q } st.mem.recs.length
  | .remove id =>
    match queueRemove st id with
    | .ok st2 => st2
    | .error _ => st

def runOps (st : QState) : List QOp → QState
  | [] => st
  | op :: ops => runOps (applyOp st op) ops

/-- The id strings of the queue's records, in order. -/
def stIds (st : QState) : List String :=
  (view st.mem st.q).map (refId st.mem)

/-- Insertion order minus removals, as a pure fold over the operations
(the reference behaviour GetAll is claimed to reflect). -/
def specStep (l : List String) : QOp → List String
  | .add id => if id = "" then l else l ++ [id]
  | .remove id =>
    match l.findIdx? (fun s => s = id) with
    | none => l
    | some i => l.eraseIdx i

def specFold (ops : List QOp) : List String :=
  ops.foldl specStep []

/-- Well-formed slice: its array exists and accommodates its capacity. -/
def WFs (mem : Mem) (s : Slice) : Prop :=
  s.arr < mem.arrays.length ∧ s.len ≤ s.cap ∧ s.cap ≤ (arrOf mem s).length

/-- A snapshot slice independent of the queue: both well formed, distinct
backing arrays. -/
def Indep (st : QState) (snap : Slice) : Prop :=
  WFs st.mem st.q ∧ WFs st.mem snap ∧ snap.arr ≠ st.q.arr

/-- Queue invariant for the order property: well formed, and every
stored pointer refers to an allocated record. -/
def QInv (st : QState) : Prop :=
  WFs st.mem st.q ∧ ∀ r ∈ view st.mem st.q, r < st.mem.recs.length

/-! ## Helper lemmas about the matching primitives -/

theorem stripLit_sound : ∀ lit s r, stripLit lit s = some r → s = lit ++ r := by
  intro lit
  induction lit with
  | nil => intro s r h; simpa [stripLit] using h
  | cons a as ih =>
    intro s r h
    cases s with
    | nil => simp [stripLit] at h
    | cons b bs =>
      by_cases hab : a = b
      · subst hab
        simp only [stripLit, if_pos rfl] at h
        simpa using (ih bs r h)
      · simp [stripLit, hab] at h

theorem stripLit_self : ∀ lit r, stripLit lit (lit ++ r) = some r := by
  intro lit
  induction lit with
  | nil => intro r; simp [stripLit]
  | cons a as ih => intro r; simp [stripLit, ih]

theorem dropWhile_append_all {p : Char → Bool} :
    ∀ w r : List Char, (∀ c ∈ w, p c) → (w ++ r).dropWhile p = r.dropWhile p := by
  intro w
  induction w with
  | nil => intro r _; rfl
  | cons a as ih =>
    intro r hall
    have ha : p a := hall a (by simp)
    simp only [List.cons_append, List.dropWhile_cons_of_pos ha]
    exact ih r (fun c hc => hall c (by simp [hc]))

theorem dropWhile_eq_self_of_head {p : Char → Bool} (r : List Char)
    (h : ∀ c, r.head? = some c → p c = false) : r.dropWhile p = r := by
  cases r with
  | nil => rfl
  | cons a as =>
    have : p a = false := h a rfl
    simp [List.dropWhile_cons, this]

theorem takeWhile_append_all {p : Char → Bool} :
    ∀ w r : List Char, (∀ c ∈ w, p c) → (w ++ r).takeWhile p = w ++ r.takeWhile p := by
  intro w
  induction w with
  | nil => intro r _; rfl
  | cons a as ih =>
    intro r hall
    have ha : p a := hall a (by simp)
    simp only [List.cons_append, List.takeWhile_cons_of_pos ha]
    rw [ih r (fun c hc => hall c (by simp [hc]))]

theorem takeWhile_eq_nil_of_head {p : Char → Bool} (r : List Char)
    (h : ∀ c, r.head? = some c → p c = false) : r.takeWhile p = [] := by
  cases r with
  | nil => rfl
  | cons a as =>
    have : p a = false := h a rfl
    simp [List.takeWhile_cons, this]

theorem wsRE_not_digit {c : Char} (h : wsRE c = true) : isDigitC c = false := by
  simp only [wsRE, Bool.or_eq_true, decide_eq_true_eq] at h
  rcases h with ((((h | h) | h) | h) | h) <;> subst h <;> decide

theorem digit_not_ws {c : Char} (h : isDigitC c = true) : wsRE c = false := by
  cases hw : wsRE c
  · rfl
  · exact absurd (wsRE_not_digit hw) (by simp [h])

theorem dropWs1_sound (s r : List Char) (h : dropWs1 s = some r) :
    ∃ w, WsRun w ∧ s = w ++ r := by
  cases s with
  | nil => simp [dropWs1] at h
  | cons c rest =>
    by_cases hws : wsRE c
    · simp only [dropWs1, if_pos hws, Option.some.injEq] at h
      refine ⟨c :: rest.takeWhile wsRE, ⟨by simp, ?_⟩, ?_⟩
      · intro x hx
        rcases List.mem_cons.mp hx with hx | hx
        · exact hx ▸ hws
        · exact List.mem_takeWhile_imp hx
      · simp only [List.cons_append, List.cons.injEq, true_and]
        rw [← h, List.takeWhile_append_dropWhile]
    · simp [dropWs1, hws] at h

theorem dropWs1_complete (w r : List Char) (hw : WsRun w)
    (hr : ∀ c, r.head? = some c → wsRE c = false) :
    dropWs1 (w ++ r) = some r := by
  obtain ⟨hne, hall⟩ := hw
  cases w with
  | nil => exact absurd rfl hne
  | cons a as =>
    have ha : wsRE a := hall a (by simp)
    simp only [List.cons_append, dropWs1, if_pos ha]
    rw [dropWhile_append_all as r (fun c hc => hall c (by simp [hc])),
      dropWhile_eq_self_of_head r hr]

theorem fieldTok_sound (s f r : List Char) (h : fieldTok s = some (f, r)) :
    FieldOk f ∧ s = f ++ r := by
  unfold fieldTok at h
  by_cases hds : (s.takeWhile isDigitC).isEmpty
  · rw [if_pos hds] at h
    cases hna : stripLit naTok s with
    | none => rw [hna] at h; exact absurd h (by simp)
    | some rest =>
      rw [hna] at h
      simp only [Option.some.injEq, Prod.mk.injEq] at h
      obtain ⟨h1, h2⟩ := h
      subst h1; subst h2
      exact ⟨Or.inr rfl, stripLit_sound _ _ _ hna⟩
  · rw [if_neg hds] at h
    simp only [Option.some.injEq, Prod.mk.injEq] at h
    obtain ⟨h1, h2⟩ := h
    subst h1; subst h2
    refine ⟨Or.inl ⟨?_, fun c hc => List.mem_takeWhile_imp hc⟩, ?_⟩
    · intro hnil
      rw [hnil] at hds
      exact hds (by simp)
    · rw [List.takeWhile_append_dropWhile]

theorem fieldTok_complete_digits (f r : List Char) (hne : f ≠ [])
    (hall : ∀ c ∈ f, isDigitC c)
    (hr : ∀ c, r.head? = some c → isDigitC c = false) :
    fieldTok (f ++ r) = some (f, r) := by
  unfold fieldTok
  rw [takeWhile_append_all f r hall, takeWhile_eq_nil_of_head r hr,
    dropWhile_append_all f r hall, dropWhile_eq_self_of_head r hr]
  simp [hne]

theorem fieldTok_complete_na (r : List Char) :
    fieldTok (naTok ++ r) = some (naTok, r) := by
  unfold fieldTok
  have hN : isDigitC 'N' = false := by decide
  have : ((naTok ++ r).takeWhile isDigitC) = [] := by
    show ((('N' : Char) :: 'A' :: []) ++ r).takeWhile isDigitC = []
    simp [List.takeWhile_cons, hN]
  rw [this, stripLit_self]
  simp

theorem fieldTok_complete (f r : List Char) (hf : FieldOk f)
    (hr : ∀ c, r.head? = some c → wsRE c = true) :
    fieldTok (f ++ r) = some (f, r) := by
  have hrd : ∀ c, r.head? = some c → isDigitC c = false := by
    intro c hc
    exact wsRE_not_digit (hr c hc)
  rcases hf with ⟨hne, hall⟩ | hna
  · exact fieldTok_complete_digits f r hne hall hrd
  · subst hna
    exact fieldTok_complete_na r

theorem head_bracket {lit : List Char} (r : List Char)
    (hl : lit.head? = some '[') :
    ∀ ch, (lit ++ r).head? = some ch → wsRE ch = false := by
  intro ch hch
  cases lit with
  | nil => simp at hl
  | cons a as =>
    simp only [List.head?_cons, Option.some.injEq] at hl
    simp only [List.cons_append, List.head?_cons, Option.some.injEq] at hch
    subst hl; subst hch
    decide

theorem fieldOk_head_not_ws {f : List Char} (r : List Char) (hf : FieldOk f) :
    ∀ ch, (f ++ r).head? = some ch → wsRE ch = false := by
  intro ch hch
  rcases hf with ⟨hne, hall⟩ | hna
  · cases f with
    | nil => exact absurd rfl hne
    | cons a as =>
      simp only [List.cons_append, List.head?_cons, Option.some.injEq] at hch
      subst hch
      exact digit_not_ws (hall a (by simp))
  · subst hna
    have hN : naTok = 'N' :: 'A' :: [] := by decide
    rw [hN] at hch
    simp only [List.cons_append, List.head?_cons, Option.some.injEq] at hch
    subst hch
    decide

theorem wsRun_head {w : List Char} (r : List Char) (hw : WsRun w) :
    ∀ ch, (w ++ r).head? = some ch → wsRE ch = true := by
  intro ch hch
  obtain ⟨hne, hall⟩ := hw
  cases w with
  | nil => exact absurd rfl hne
  | cons a as =>
    simp only [List.cons_append, List.head?_cons, Option.some.injEq] at hch
    subst hch
    exact hall a (by simp)

theorem seg_sound (lit s dv r : List Char) (h : seg lit s = some (dv, r)) :
    ∃ w, s = lit ++ w ++ dv ++ r ∧ WsRun w ∧ FieldOk dv := by
  unfold seg at h
  simp only [bind, Option.bind_eq_some] at h
  obtain ⟨s1, hs1, h⟩ := h
  obtain ⟨s2, hs2, h⟩ := h
  have e1 := stripLit_sound _ _ _ hs1
  obtain ⟨w, hw, e2⟩ := dropWs1_sound _ _ hs2
  obtain ⟨fok, e3⟩ := fieldTok_sound _ _ _ h
  exact ⟨w, by simp [e1, e2, e3], hw, fok⟩

theorem seg_complete (lit w dv r : List Char) (hw : WsRun w) (hd : FieldOk dv)
    (hr : ∀ c, r.head? = some c → wsRE c = true) :
    seg lit (lit ++ (w ++ (dv ++ r))) = some (dv, r) := by
  unfold seg
  rw [stripLit_self]
  simp only [bind, Option.some_bind]
  rw [dropWs1_complete w (dv ++ r) hw (fieldOk_head_not_ws r hd)]
  simp only [Option.some_bind]
  exact fieldTok_complete dv r hd hr

theorem matchTail_sound (s d t f c : List Char)
    (h : matchTail s = some (d, t, f, c)) : TailShape s d t f c := by
  unfold matchTail at h
  simp only [bind, Option.bind_eq_some] at h
  obtain ⟨⟨dv, s1⟩, hs1, h⟩ := h
  obtain ⟨s2, hs2, h⟩ := h
  obtain ⟨⟨tv, s3⟩, hs3, h⟩ := h
  obtain ⟨s4, hs4, h⟩ := h
  obtain ⟨⟨fv, s5⟩, hs5, h⟩ := h
  obtain ⟨s6, hs6, h⟩ := h
  obtain ⟨⟨cv, s7⟩, hs7, h⟩ := h
  dsimp only at hs2 hs4 hs6 h
  by_cases hemp : s7.isEmpty
  · rw [if_pos hemp] at h
    simp only [Option.some.injEq, Prod.mk.injEq] at h
    obtain ⟨hd, ht, hf, hc⟩ := h
    subst hd; subst ht; subst hf; subst hc
    obtain ⟨w1, e1, hw1, fok1⟩ := seg_sound _ _ _ _ hs1
    obtain ⟨w2, hww2, e2⟩ := dropWs1_sound _ _ hs2
    obtain ⟨w3, e3, hw3, fok2⟩ := seg_sound _ _ _ _ hs3
    obtain ⟨w4, hww4, e4⟩ := dropWs1_sound _ _ hs4
    obtain ⟨w5, e5, hw5, fok3⟩ := seg_sound _ _ _ _ hs5
    obtain ⟨w6, hww6, e6⟩ := dropWs1_sound _ _ hs6
    obtain ⟨w7, e7, hw7, fok4⟩ := seg_sound _ _ _ _ hs7
    have h7 : s7 = [] := by
      cases s7 with
      | nil => rfl
      | cons a b => simp at hemp
    subst h7
    refine ⟨w1, w2, w3, w4, w5, w6, w7, ?_, hw1, hww2, hw3, hww4, hw5, hww6,
      hw7, fok1, fok2, fok3, fok4⟩
    rw [e1, e2, e3, e4, e5, e6, e7]
    simp
  · rw [if_neg hemp] at h
    exact absurd h (by simp)

theorem matchTail_complete (s d t f c : List Char) (h : TailShape s d t f c) :
    matchTail s = some (d, t, f, c) := by
  obtain ⟨w1, w2, w3, w4, w5, w6, w7, hs, hw1, hw2, hw3, hw4, hw5, hw6, hw7,
    hd, ht, hf, hc⟩ := h
  subst hs
  unfold matchTail
  have e1 := seg_complete mDownloaded w1 d
    (w2 ++ (mTotal ++ (w3 ++ (t ++ (w4 ++ (mFrag ++ (w5 ++ (f ++ (w6 ++
      (mFrags ++ (w7 ++ c)))))))))))
    hw1 hd (wsRun_head _ hw2)
  have e2 := dropWs1_complete w2
    (mTotal ++ (w3 ++ (t ++ (w4 ++ (mFrag ++ (w5 ++ (f ++ (w6 ++
      (mFrags ++ (w7 ++ c))))))))))
    hw2 (head_bracket _ (by decide))
  have e3 := seg_complete mTotal w3 t
    (w4 ++ (mFrag ++ (w5 ++ (f ++ (w6 ++ (mFrags ++ (w7 ++ c)))))))
    hw3 ht (wsRun_head _ hw4)
  have e4 := dropWs1_complete w4
    (mFrag ++ (w5 ++ (f ++ (w6 ++ (mFrags ++ (w7 ++ c))))))
    hw4 (head_bracket _ (by decide))
  have e5 := seg_complete mFrag w5 f (w6 ++ (mFrags ++ (w7 ++ c)))
    hw5 hf (wsRun_head _ hw6)
  have e6 := dropWs1_complete w6 (mFrags ++ (w7 ++ c))
    hw6 (head_bracket _ (by decide))
  have e7 := seg_complete mFrags w7 c [] hw7 hc (by intro ch hch; simp at hch)
  simp only [List.append_assoc] at e1 e2 e3 e4 e5 e6 e7 ⊢
  rw [List.append_nil] at e7
  simp only [bind, e1, Option.some_bind, e2, e3, e4, e5, e6, e7]
  simp

theorem titleLoop_sound :
    ∀ (s acc ttl : List Char) r, titleLoop acc s = some (ttl, r) →
      ∃ tc wT tl, s = tc ++ wT ++ tl ∧ tc ≠ [] ∧ (∀ c ∈ tc, ¬ c = '\n') ∧
        ttl = acc ++ tc ∧ WsRun wT ∧ matchTail tl = some r := by
  intro s
  induction s with
  | nil => intro acc ttl r h; simp [titleLoop] at h
  | cons ch rest ih =>
    intro acc ttl r h
    by_cases hnl : ch = '\n'
    · simp [titleLoop, hnl] at h
    · rw [titleLoop, if_neg hnl] at h
      cases htest : dropWs1 rest >>= matchTail with
      | some r' =>
        rw [htest] at h
        simp only [Option.some.injEq, Prod.mk.injEq] at h
        obtain ⟨h1, h2⟩ := h
        subst h1; subst h2
        simp only [bind, Option.bind_eq_some] at htest
        obtain ⟨u, hu, hmt⟩ := htest
        obtain ⟨w, hw, hrest⟩ := dropWs1_sound _ _ hu
        exact ⟨[ch], w, u, by simp [hrest], by simp,
          by intro c hc; simp at hc; subst hc; exact hnl, rfl, hw, hmt⟩
      | none =>
        rw [htest] at h
        obtain ⟨tc, wT, tl, hrest, htc, hnl2, httl, hwT, hmt⟩ :=
          ih (acc ++ [ch]) ttl r h
        refine ⟨ch :: tc, wT, tl, by simp [hrest], by simp, ?_,
          by simp [httl], hwT, hmt⟩
        intro c hc
        rcases List.mem_cons.mp hc with hc | hc
        · subst hc; exact hnl
        · exact hnl2 c hc

theorem titleLoop_isSome_cons (acc : List Char) (ch : Char) (rest : List Char)
    (h : ¬ ch = '\n') :
    (titleLoop acc (ch :: rest)).isSome =
      ((dropWs1 rest >>= matchTail).isSome ||
        (titleLoop (acc ++ [ch]) rest).isSome) := by
  rw [titleLoop, if_neg h]
  cases dropWs1 rest >>= matchTail <;> simp

theorem titleLoop_complete :
    ∀ (ttl wT tl : List Char) r acc, ttl ≠ [] → (∀ c ∈ ttl, ¬ c = '\n') →
      WsRun wT → (∀ ch, tl.head? = some ch → wsRE ch = false) →
      matchTail tl = some r →
      (titleLoop acc (ttl ++ wT ++ tl)).isSome := by
  intro ttl
  induction ttl with
  | nil => intro wT tl r acc hne; exact absurd rfl hne
  | cons c t' ih =>
    intro wT tl r acc _ hnl hwT hhd hmt
    have hc : ¬ c = '\n' := hnl c (by simp)
    simp only [List.cons_append, List.append_assoc, List.nil_append]
    rw [titleLoop_isSome_cons _ _ _ hc]
    cases t' with
    | nil =>
      have hx : dropWs1 ([] ++ (wT ++ tl)) >>= matchTail = some r := by
        simp only [List.nil_append]
        rw [dropWs1_complete wT tl hwT hhd]
        exact hmt
      simp only [List.nil_append] at hx
      simp [hx]
    | cons c2 t2 =>
      have := ih wT tl r (acc ++ [c]) (by simp)
        (fun x hx2 => hnl x (by simp [hx2])) hwT hhd hmt
      simp only [List.cons_append, List.append_assoc] at this
      simp [this]

theorem tryWs_sound :
    ∀ (k : Nat) (s : List Char) r, tryWs s k = some r →
      k ≤ (s.takeWhile wsRE).length →
      ∃ w rest, s = w ++ rest ∧ WsRun w ∧ titleLoop [] rest = some r := by
  intro k
  induction k with
  | zero => intro s r h; simp [tryWs] at h
  | succ k ih =>
    intro s r h hk
    rw [tryWs] at h
    cases htl : titleLoop [] (s.drop (k + 1)) with
    | some r' =>
      rw [htl] at h
      simp only [Option.some.injEq] at h
      subst h
      refine ⟨s.take (k + 1), s.drop (k + 1), (List.take_append_drop _ _).symm,
        ⟨?_, ?_⟩, htl⟩
      · have h1 : (s.takeWhile wsRE).length ≤ s.length :=
          List.Sublist.length_le (List.takeWhile_sublist wsRE)
        have h2 : k + 1 ≤ s.length := le_trans hk h1
        intro hnil
        have := congrArg List.length hnil
        simp only [List.length_take, List.length_nil] at this
        omega
      · intro c hc
        have hpre : s.takeWhile wsRE <+: s := List.takeWhile_prefix wsRE
        obtain ⟨suf, hsuf⟩ := hpre
        have : s.take (k + 1) = (s.takeWhile wsRE).take (k + 1) := by
          conv_lhs => rw [← hsuf]
          rw [List.take_append_eq_append_take]
          have : k + 1 - (s.takeWhile wsRE).length = 0 := by omega
          rw [this]
          simp
        rw [this] at hc
        exact List.mem_takeWhile_imp (List.take_subset _ _ hc)
    | none =>
      rw [htl] at h
      exact ih s r h (by omega)

theorem tryWs_complete :
    ∀ (k : Nat) (s : List Char),
      (∃ j, 1 ≤ j ∧ j ≤ k ∧ (titleLoop [] (s.drop j)).isSome) →
      (tryWs s k).isSome := by
  intro k
  induction k with
  | zero => intro s ⟨j, h1, h2, _⟩; omega
  | succ k ih =>
    intro s ⟨j, h1, h2, h3⟩
    rw [tryWs]
    cases htl : titleLoop [] (s.drop (k + 1)) with
    | some r => simp
    | none =>
      apply ih
      refine ⟨j, h1, ?_, h3⟩
      rcases Nat.lt_or_ge j (k + 1) with hj | hj
      · omega
      · have : j = k + 1 := by omega
        subst this
        rw [htl] at h3
        simp at h3

theorem TailShape_fields {s d t f c : List Char} (h : TailShape s d t f c) :
    FieldOk d ∧ FieldOk t ∧ FieldOk f ∧ FieldOk c := by
  obtain ⟨_, _, _, _, _, _, _, _, _, _, _, _, _, _, _, h1, h2, h3, h4⟩ := h
  exact ⟨h1, h2, h3, h4⟩

theorem matchAt_sound (s : List Char) (ttl d t f c : List Char)
    (h : matchAt s = some (ttl, (d, t, f, c))) :
    GrammarAt s ∧ FieldOk d ∧ FieldOk t ∧ FieldOk f ∧ FieldOk c := by
  unfold matchAt at h
  simp only [bind, Option.bind_eq_some] at h
  obtain ⟨s1, hs1, h⟩ := h
  have e1 := stripLit_sound _ _ _ hs1
  obtain ⟨w0, rest, hrest, hw0, htl⟩ := tryWs_sound _ _ _ h (le_refl _)
  obtain ⟨tc, wT, tl, hdec, htc, hnl, httl, hwT, hmt⟩ :=
    titleLoop_sound _ _ _ _ htl
  have hts := matchTail_sound _ _ _ _ _ hmt
  obtain ⟨f1, f2, f3, f4⟩ := TailShape_fields hts
  refine ⟨⟨w0, tc, wT, tl, d, t, f, c, ?_, hw0, ⟨htc, hnl⟩, hwT, hts⟩,
    f1, f2, f3, f4⟩
  rw [e1, hrest, hdec]
  simp

theorem matchAt_complete (s : List Char) (h : GrammarAt s) :
    (matchAt s).isSome := by
  obtain ⟨w0, ttl, wT, tl, d, t, f, c, hs, hw0, httl, hwT, htail⟩ := h
  have hmt := matchTail_complete _ _ _ _ _ htail
  have hhd : ∀ ch, tl.head? = some ch → wsRE ch = false := by
    obtain ⟨w1, w2, w3, w4, w5, w6, w7, hdec, -⟩ := htail
    intro ch hch
    rw [hdec] at hch
    simp only [List.append_assoc] at hch
    exact head_bracket _ (by decide) ch hch
  have hs1 : stripLit mByto s = some (w0 ++ (ttl ++ (wT ++ tl))) := by
    rw [hs]
    simp only [List.append_assoc]
    exact stripLit_self _ _
  have h1 : 1 ≤ w0.length := by
    have : w0 ≠ [] := hw0.1
    cases w0 with
    | nil => exact absurd rfl this
    | cons a b => simp
  have h2 : w0.length ≤
      ((w0 ++ (ttl ++ (wT ++ tl))).takeWhile wsRE).length := by
    rw [takeWhile_append_all w0 _ hw0.2]
    simp
  have h3 : (titleLoop []
      ((w0 ++ (ttl ++ (wT ++ tl))).drop w0.length)).isSome := by
    rw [List.drop_left]
    have := titleLoop_complete ttl wT tl _ [] httl.1 httl.2 hwT hhd hmt
    simpa [List.append_assoc] using this
  unfold matchAt
  rw [hs1]
  exact tryWs_complete _ _ ⟨w0.length, h1, h2, h3⟩

theorem findMatch_sound :
    ∀ (s : List Char) r, findMatch s = some r →
      ∃ pre suf, s = pre ++ suf ∧ matchAt suf = some r := by
  intro s
  induction s with
  | nil => intro r h; simp [findMatch] at h
  | cons ch rest ih =>
    intro r h
    rw [findMatch] at h
    cases hma : matchAt (ch :: rest) with
    | some r' =>
      rw [hma] at h
      simp only [Option.some.injEq] at h
      subst h
      exact ⟨[], ch :: rest, by simp, hma⟩
    | none =>
      rw [hma] at h
      obtain ⟨pre, suf, hdec, hm⟩ := ih r h
      exact ⟨ch :: pre, suf, by simp [hdec], hm⟩

theorem findMatch_complete :
    ∀ (pre s suf : List Char), s = pre ++ suf → (matchAt suf).isSome →
      (findMatch s).isSome := by
  intro pre
  induction pre with
  | nil =>
    intro s suf hdec hm
    simp only [List.nil_append] at hdec
    subst hdec
    cases s with
    | nil =>
      have : matchAt [] = none := by rfl
      rw [this] at hm
      simp at hm
    | cons ch rest =>
      rw [findMatch]
      cases hma : matchAt (ch :: rest) with
      | some r => simp
      | none => rw [hma] at hm; simp at hm
  | cons a pre' ih =>
    intro s suf hdec hm
    subst hdec
    rw [List.cons_append, findMatch]
    cases hma : matchAt (a :: (pre' ++ suf)) with
    | some r => simp
    | none => exact ih _ suf rfl hm

theorem dropWhile_head_not {p : Char → Bool} :
    ∀ (l : List Char) c, (l.dropWhile p).head? = some c → p c = false := by
  intro l
  induction l with
  | nil => intro c h; simp at h
  | cons a as ih =>
    intro c h
    by_cases ha : p a
    · rw [List.dropWhile_cons_of_pos ha] at h
      exact ih c h
    · rw [List.dropWhile_cons_of_neg ha] at h
      simp only [List.head?_cons, Option.some.injEq] at h
      subst h
      exact Bool.of_not_eq_true ha

theorem head?_append_left {α : Type} (u v : List α) (h : u ≠ []) :
    (u ++ v).head? = u.head? := by
  cases u with
  | nil => exact absurd rfl h
  | cons a as => rfl

theorem getLast?_append_right {α : Type} (u v : List α) (h : v ≠ []) :
    (u ++ v).getLast? = v.getLast? := by
  rw [← List.head?_reverse, ← List.head?_reverse, List.reverse_append]
  apply head?_append_left
  intro hv
  apply h
  have := congrArg List.reverse hv
  simpa using this

theorem goTrim_trimmed (x : List Char) : Trimmed (goTrim x) := by
  unfold goTrim Trimmed
  set a := x.dropWhile goSpace with ha
  set b := a.reverse.dropWhile goSpace with hb
  constructor
  · intro c hc
    rw [List.head?_reverse] at hc
    cases hbn : b with
    | nil => rw [hbn] at hc; simp at hc
    | cons y ys =>
      have hsuf : b <:+ a.reverse := List.dropWhile_suffix goSpace
      obtain ⟨u, hu⟩ := hsuf
      have hrw : a.reverse.getLast? = b.getLast? := by
        rw [← hu]
        exact getLast?_append_right u b (by rw [hbn]; simp)
      rw [← hrw, List.getLast?_reverse] at hc
      rw [ha] at hc
      exact dropWhile_head_not x c hc
  · intro c hc
    rw [List.getLast?_reverse] at hc
    rw [hb] at hc
    exact dropWhile_head_not a.reverse c hc

theorem parseCore_sound (l : List Char) (r : ParsedRec)
    (h : parseCore l = .ok r) :
    Grammar (goTrim l) ∧ FieldOk r.downloadedBytes ∧ FieldOk r.totalBytes ∧
      FieldOk r.fragmentIndex ∧ FieldOk r.fragmentCount ∧ Trimmed r.title := by
  unfold parseCore at h
  cases hfm : findMatch (goTrim l) with
  | none => rw [hfm] at h; exact absurd h (by simp)
  | some res =>
    obtain ⟨ttl, d, t, f, c⟩ := res
    rw [hfm] at h
    simp only [Except.ok.injEq] at h
    subst h
    obtain ⟨pre, suf, hdec, hma⟩ := findMatch_sound _ _ hfm
    obtain ⟨hg, f1, f2, f3, f4⟩ := matchAt_sound _ _ _ _ _ _ hma
    exact ⟨⟨pre, suf, hdec, hg⟩, f1, f2, f3, f4, goTrim_trimmed ttl⟩

theorem parseCore_complete (l : List Char) (h : Grammar (goTrim l)) :
    ∃ r, parseCore l = .ok r := by
  obtain ⟨pre, suf, hdec, hg⟩ := h
  have hfs := findMatch_complete pre (goTrim l) suf hdec (matchAt_complete suf hg)
  unfold parseCore
  cases hfm : findMatch (goTrim l) with
  | none => rw [hfm] at hfs; simp at hfs
  | some res =>
    obtain ⟨ttl, d, t, f, c⟩ := res
    exact ⟨_, rfl⟩

theorem parseCore_error (l : List Char) (h : ¬ Grammar (goTrim l)) :
    parseCore l = .error "failed to parse log line: format mismatch" := by
  cases hfm : findMatch (goTrim l) with
  | none => unfold parseCore; rw [hfm]
  | some res =>
    obtain ⟨ttl, d, t, f, c⟩ := res
    obtain ⟨pre, suf, hdec, hma⟩ := findMatch_sound _ _ hfm
    obtain ⟨hg, -⟩ := matchAt_sound _ _ _ _ _ _ hma
    exact absurd ⟨pre, suf, hdec, hg⟩ h

/-! ## Helper lemmas about the embedded operations -/

theorem parseIntGo_nonneg (s : List Char) : 0 ≤ parseIntGo s := by
  unfold parseIntGo
  split
  · have h1 : (0 : Int) ≤ (natOfDigits s : Int) := Int.ofNat_nonneg _
    have h2 : (0 : Int) ≤ 2 ^ 63 - 1 := by decide
    exact le_min h1 h2
  · exact le_refl 0

theorem parseIntGo_na : parseIntGo naTok = 0 := by decide

theorem parseIntGo_nil : parseIntGo [] = 0 := by decide

theorem fieldOk_of_ne_na {f : List Char} (hf : FieldOk f) (h : f ≠ naTok) :
    f ≠ [] ∧ ∀ c ∈ f, isDigitC c := by
  rcases hf with h1 | h2
  · exact h1
  · exact absurd h2 h

theorem armAll_nil (g : Nat) : armAll g [] = [] := rfl

theorem armAll_cons (g : Nat) (m : MediaState) (rest : List MediaState) :
    armAll g (m :: rest) = armItem m g :: armAll (g + 1) rest := rfl

theorem selectArm_eq :
    ∀ (snap : List MediaState) (g : Nat),
      selectArm g snap =
        (g + (snap.filter (fun m => startable m.status)).length,
         armAll g (snap.filter (fun m => startable m.status))) := by
  intro snap
  induction snap with
  | nil => intro g; simp [selectArm, armAll]
  | cons m rest ih =>
    intro g
    by_cases hm : startable m.status
    · rw [selectArm, if_pos hm, ih (g + 1)]
      simp only [List.filter_cons, hm, if_pos]
      rw [armAll_cons]
      simp only [Prod.mk.injEq, List.length_cons]
      exact ⟨by omega, trivial⟩
    · rw [selectArm, if_neg hm, ih g]
      simp only [List.filter_cons]
      rw [if_neg (by simpa using hm)]

theorem armAll_map {α : Type} (fn : MediaState → α)
    (hf : ∀ m g, fn (armItem m g) = fn m) :
    ∀ (l : List MediaState) (g : Nat), (armAll g l).map fn = l.map fn := by
  intro l
  induction l with
  | nil => intro g; rfl
  | cons m rest ih =>
    intro g
    rw [armAll_cons, List.map_cons, List.map_cons, hf, ih]

theorem armAll_get :
    ∀ (l : List MediaState) (g i : Nat) (hi : i < (armAll g l).length),
      ((armAll g l).get ⟨i, hi⟩).token = some (g + i) := by
  intro l
  induction l with
  | nil => intro g i hi; simp [armAll] at hi
  | cons m rest ih =>
    intro g i hi
    cases i with
    | zero => rfl
    | succ j =>
      have hj : j < (armAll (g + 1) rest).length := by
        have h2 := hi
        rw [armAll_cons] at h2
        simpa using Nat.lt_of_succ_lt_succ h2
      have hrec := ih (g + 1) j hj
      have hget : ((armAll g (m :: rest)).get ⟨j + 1, hi⟩) =
          ((armAll (g + 1) rest).get ⟨j, hj⟩) := rfl
      rw [hget, hrec]
      congr 1
      omega

theorem armAll_length :
    ∀ (l : List MediaState) (g : Nat), (armAll g l).length = l.length := by
  intro l
  induction l with
  | nil => intro g; rfl
  | cons m rest ih => intro g; rw [armAll_cons]; simp [ih]

theorem armAll_getElem :
    ∀ (l : List MediaState) (g i : Nat) (mi : MediaState),
      (armAll g l)[i]? = some mi → mi.token = some (g + i) := by
  intro l
  induction l with
  | nil => intro g i mi h; rw [armAll_nil] at h; simp at h
  | cons m rest ih =>
    intro g i mi h
    rw [armAll_cons] at h
    cases i with
    | zero =>
      simp only [List.getElem?_cons_zero, Option.some.injEq] at h
      subst h
      rfl
    | succ j =>
      rw [List.getElem?_cons_succ] at h
      have := ih (g + 1) j mi h
      rw [this]
      congr 1
      omega

theorem armAll_mem :
    ∀ (l : List MediaState) (g : Nat) (m : MediaState), m ∈ armAll g l →
      ∃ m' g', m' ∈ l ∧ m = armItem m' g' := by
  intro l
  induction l with
  | nil => intro g m h; rw [armAll_nil] at h; simp at h
  | cons m0 rest ih =>
    intro g m h
    rw [armAll_cons] at h
    rcases List.mem_cons.mp h with h | h
    · exact ⟨m0, g, by simp, h⟩
    · obtain ⟨m', g', hmem, heq⟩ := ih (g + 1) m h
      exact ⟨m', g', by simp [hmem], heq⟩

theorem startable_ne_inProgress {st : DStatus} (h : startable st = true) :
    st ≠ DStatus.inProgress := by
  intro heq
  subst heq
  exact absurd h (by decide)

theorem goInt64OfF64_cases (x : F64) :
    0 ≤ goInt64OfF64 x ∨ goInt64OfF64 x = -(2 ^ 63) := by
  cases x with
  | zero => exact Or.inl (le_refl 0)
  | pos m e =>
    simp only [goInt64OfF64]
    split_ifs
    · exact Or.inl (Int.natCast_nonneg _)
    · exact Or.inr rfl
    · exact Or.inl (Int.natCast_nonneg _)

theorem pctOf_cases (n d : Int) :
    0 ≤ pctOf n d ∨ pctOf n d = -(2 ^ 63) :=
  goInt64OfF64_cases _

theorem processParsed_pct_cases (m : MediaState) (r : ParsedRec) :
    0 ≤ (processParsed m r).percentage ∨
      (processParsed m r).percentage = -(2 ^ 63) := by
  simp only [processParsed, updateProgress]
  split_ifs <;>
    first
    | exact Or.inl (le_refl 0)
    | exact absurd (by assumption : (0 : Int) < 0) (by decide)
    | exact pctOf_cases _ _

/-! ## The claims -/

/-- C2 (amended): `Parse` succeeds exactly on inputs whose trimmed text
contains an end-anchored match of the five-marker grammar starting at
some occurrence of the `[byto]` marker (content before the matched
marker is allowed, because the regular expression is not anchored at the
start); it fails with the format-mismatch error exactly when no such
match exists (a marker missing or out of order, a numeric field that is
not a digit string or the exact-case literal `NA`, or trailing content
after the last field); on success it returns exactly the five keys
title, downloaded_bytes, total_bytes, fragment_index, fragment_count,
with the title trimmed of surrounding white space and each numeric field
a digit string or `NA` verbatim. -/
theorem claim_C2 (input : String) :
    ((∃ r, parseYTDLP input = .ok r) ↔ Grammar (goTrim input.toList)) ∧
    (∀ r, parseYTDLP input = .ok r →
      FieldOk r.downloadedBytes ∧ FieldOk r.totalBytes ∧
      FieldOk r.fragmentIndex ∧ FieldOk r.fragmentCount ∧ Trimmed r.title) ∧
    (¬ Grammar (goTrim input.toList) →
      parseYTDLP input = .error "failed to parse log line: format mismatch") := by
  refine ⟨⟨?_, ?_⟩, ?_, ?_⟩
  · rintro ⟨r, hr⟩
    exact (parseCore_sound _ _ hr).1
  · exact parseCore_complete _
  · intro r hr
    have h := parseCore_sound _ _ hr
    exact ⟨h.2.1, h.2.2.1, h.2.2.2.1, h.2.2.2.2.1, h.2.2.2.2.2⟩
  · exact parseCore_error _

/-- C2 counterexample: the claim states that Parse fails whenever any
content precedes the first marker; in fact the regular expression is not
anchored at the start, so a line with leading content before `[byto]`
parses successfully. -/
theorem claim_C2_counterexample :
    parseYTDLP "junk before [byto] T [downloaded] 1 [total] 2 [frag] NA [frags] NA" =
      .ok { title := "T".toList, downloadedBytes := "1".toList,
            totalBytes := "2".toList, fragmentIndex := naTok,
            fragmentCount := naTok } := by
  rfl

/-- Witness for claim_C2 at a concrete well-formed line. -/
theorem claim_C2_witness :
    Grammar (goTrim "[byto] My Video [downloaded] 500 [total] NA [frag] NA [frags] NA".toList) ∧
    FieldOk "500".toList ∧ Trimmed "My Video".toList := by
  have h := claim_C2 "[byto] My Video [downloaded] 500 [total] NA [frag] NA [frags] NA"
  have hok : parseYTDLP "[byto] My Video [downloaded] 500 [total] NA [frag] NA [frags] NA" =
      .ok { title := "My Video".toList, downloadedBytes := "500".toList,
            totalBytes := naTok, fragmentIndex := naTok,
            fragmentCount := naTok } := by rfl
  exact ⟨h.1.mp ⟨_, hok⟩, (h.2.1 _ hok).1, (h.2.1 _ hok).2.2.2.2⟩

/-- C6 (confirmed): each of the six known quality levels maps to a
format-selector expression containing its height bound and ending in the
unconditional `/best` fallback; every unrecognized or default value maps
to the unconstrained best-available expression, which also ends in
`/best`; the Quality step appends `-f` and that expression to the
accumulated argument list. -/
theorem claim_C6 (args : List String) (q : Int) :
    builderQuality args q = args ++ ["-f", qualityFormatExpr q] ∧
    (hasSub "360".toList (qualityFormatExpr quality360p).toList = true ∧
      endsWithL "/best".toList (qualityFormatExpr quality360p).toList = true) ∧
    (hasSub "480".toList (qualityFormatExpr quality480p).toList = true ∧
      endsWithL "/best".toList (qualityFormatExpr quality480p).toList = true) ∧
    (hasSub "720".toList (qualityFormatExpr quality720p).toList = true ∧
      endsWithL "/best".toList (qualityFormatExpr quality720p).toList = true) ∧
    (hasSub "1080".toList (qualityFormatExpr quality1080p).toList = true ∧
      endsWithL "/best".toList (qualityFormatExpr quality1080p).toList = true) ∧
    (hasSub "1440".toList (qualityFormatExpr quality1440p).toList = true ∧
      endsWithL "/best".toList (qualityFormatExpr quality1440p).toList = true) ∧
    (hasSub "2160".toList (qualityFormatExpr quality2160p).toList = true ∧
      endsWithL "/best".toList (qualityFormatExpr quality2160p).toList = true) ∧
    ((q ≠ quality360p ∧ q ≠ quality480p ∧ q ≠ quality720p ∧
      q ≠ quality1080p ∧ q ≠ quality1440p ∧ q ≠ quality2160p) →
      qualityFormatExpr q = "bestvideo+bestaudio/best" ∧
      endsWithL "/best".toList "bestvideo+bestaudio/best".toList = true) := by
  refine ⟨rfl, by decide, by decide, by decide, by decide, by decide, by decide, ?_⟩
  rintro ⟨h1, h2, h3, h4, h5, h6⟩
  unfold qualityFormatExpr
  rw [if_neg h1, if_neg h2, if_neg h3, if_neg h4, if_neg h5, if_neg h6]
  exact ⟨rfl, by decide⟩

/-- Witness for claim_C6 at an unrecognized quality value. -/
theorem claim_C6_witness :
    qualityFormatExpr 99 = "bestvideo+bestaudio/best" ∧
    builderQuality [] 99 = ["-f", qualityFormatExpr 99] := by
  have h := claim_C6 [] 99
  refine ⟨?_, by simpa using h.1⟩
  exact (h.2.2.2.2.2.2.2 (by refine ⟨?_, ?_, ?_, ?_, ?_, ?_⟩ <;> decide)).1

/-- C7 (amended): a configured parallelism of zero yields zero workers
and no progress (the call succeeds, no selected item has status
InProgress, and with no worker loops nothing is ever pulled from the job
queue), but a negative parallelism does not complete without failure: it
panics at run time when the semaphore channel is created
(`make(chan struct{}, n)` with negative `n`). -/
theorem claim_C7 (g : Nat) (snap : List MediaState) :
    (∃ o, startDownloads 0 g snap = .ok o ∧ o.workers = 0 ∧
      o.jobs.map (fun m => m.status) =
        (snap.filter (fun m => startable m.status)).map (fun m => m.status) ∧
      ∀ m ∈ o.jobs, m.status ≠ DStatus.inProgress) ∧
    (∀ p : Int, p < 0 →
      startDownloads p g snap = .error "makechan: size out of range") := by
  constructor
  · refine ⟨_, rfl, rfl, ?_, ?_⟩
    · show (selectArm g snap).2.map (fun m => m.status) = _
      rw [selectArm_eq]
      exact armAll_map (fun m => m.status) (fun m g => rfl) _ _
    · show ∀ m ∈ (selectArm g snap).2, m.status ≠ DStatus.inProgress
      rw [selectArm_eq]
      intro m hm
      obtain ⟨m', g', hmem, heq⟩ := armAll_mem _ _ _ hm
      have hst := List.of_mem_filter hmem
      subst heq
      exact startable_ne_inProgress hst
  · intro p hp
    unfold startDownloads
    rw [if_pos hp]

/-- C7 counterexample: with parallelism -1 the claim asserts the call
completes without failure; the code panics creating the semaphore
channel. -/
theorem claim_C7_counterexample :
    startDownloads (-1) 0 [] = .error "makechan: size out of range" ∧
    ¬ ∃ o, startDownloads (-1) 0 [] = .ok o := by
  refine ⟨rfl, ?_⟩
  rintro ⟨o, h⟩
  have h2 : startDownloads (-1) 0 [] =
      Except.error "makechan: size out of range" := rfl
  rw [h2] at h
  exact Except.noConfusion h

/-- Witness for claim_C7 at concrete parallelism values. -/
theorem claim_C7_witness :
    startDownloads (-2) 5 [] = .error "makechan: size out of range" ∧
    ∃ o, startDownloads 0 5 [] = .ok o ∧ o.workers = 0 := by
  have h := claim_C7 5 ([] : List MediaState)
  obtain ⟨o, h1, h2, -⟩ := h.1
  exact ⟨h.2 (-2) (by decide), o, h1, h2⟩

/-- C1 (amended): for every output line successfully parsed, if the
total-bytes field parses to a value greater than 0 the record's
percentage is set to `int(float64(downloaded)/float64(total)*100)`
evaluated in IEEE-754 binary64 arithmetic (`pctOf`) — which agrees with
the exact floor for quantities below 2^53 but can differ beyond it;
otherwise, if both fragment fields are numeric (not `NA`) and the
fragment count is positive, it is set to the same expression over
index and count; otherwise the percentage is set to 0, overwriting the
record's previous value (the Go code initialises its local `percentage`
to 0 and always calls UpdateProgress, which stores the value
unconditionally). -/
theorem claim_C1 (m : MediaState) (l : List Char) (r : ParsedRec)
    (hp : parseCore l = .ok r) :
    (0 < parseIntGo r.totalBytes →
      (processParsed m r).percentage =
        pctOf (parseIntGo r.downloadedBytes) (parseIntGo r.totalBytes)) ∧
    ((r.totalBytes = naTok ∨ parseIntGo r.totalBytes = 0) →
      r.fragmentIndex ≠ naTok → r.fragmentCount ≠ naTok →
      0 < parseIntGo r.fragmentCount →
      (processParsed m r).percentage =
        pctOf (parseIntGo r.fragmentIndex) (parseIntGo r.fragmentCount)) ∧
    ((r.totalBytes = naTok ∨ parseIntGo r.totalBytes = 0) →
      (r.fragmentIndex = naTok ∨ r.fragmentCount = naTok ∨
        parseIntGo r.fragmentCount = 0) →
      (processParsed m r).percentage = 0) := by
  obtain ⟨-, fdl, ftot, ffi, ffc, -⟩ := parseCore_sound l r hp
  simp only [processParsed, updateProgress]
  have htotal0 : (r.totalBytes = naTok ∨ parseIntGo r.totalBytes = 0) →
      (if r.totalBytes ≠ naTok ∧ r.totalBytes ≠ [] then
        parseIntGo r.totalBytes else 0) = (0 : Int) := by
    intro htot
    by_cases hcond : r.totalBytes ≠ naTok ∧ r.totalBytes ≠ []
    · rw [if_pos hcond]
      rcases htot with h | h
      · exact absurd h hcond.1
      · exact h
    · rw [if_neg hcond]
  refine ⟨?_, ?_, ?_⟩
  · intro ht
    have hne : r.totalBytes ≠ naTok := by
      intro h
      rw [h, parseIntGo_na] at ht
      exact absurd ht (by decide)
    have hnn : r.totalBytes ≠ [] := by
      intro h
      rw [h, parseIntGo_nil] at ht
      exact absurd ht (by decide)
    rw [if_pos (⟨hne, hnn⟩ : r.totalBytes ≠ naTok ∧ r.totalBytes ≠ [])]
    rw [if_pos ht]
  · intro htot hfi hfc hpos
    rw [htotal0 htot, if_neg (by decide : ¬ (0 : Int) < 0)]
    have hfi2 := fieldOk_of_ne_na ffi hfi
    have hfc2 := fieldOk_of_ne_na ffc hfc
    rw [if_pos ⟨hfi, hfc, hfi2.1, hfc2.1⟩, if_pos hpos]
  · intro htot hbad
    rw [htotal0 htot, if_neg (by decide : ¬ (0 : Int) < 0)]
    by_cases hcond : r.fragmentIndex ≠ naTok ∧ r.fragmentCount ≠ naTok ∧
        r.fragmentIndex ≠ [] ∧ r.fragmentCount ≠ []
    · rw [if_pos hcond]
      rcases hbad with h | h | h
      · exact absurd h hcond.1
      · exact absurd h hcond.2.1
      · rw [if_neg (by rw [h]; exact (by decide : ¬ (0 : Int) < 0))]
    · rw [if_neg hcond]

/-- C1 counterexample, refuting the claim on two points. First, the
claim states that when total is `NA` and both fragment fields are `NA`
the percentage is left unchanged at its previous value; the code
overwrites it with 0 (prior value 50 becomes 0). Second, the claim
states the percentage is floor(downloaded/total*100): for the parseable
line with downloaded = 1000000000000001 and total = 3 the program's
IEEE-754 computation stores 33333333333333368, while the exact floor is
33333333333333366. -/
theorem claim_C1_counterexample :
    (parseCore "[byto] T [downloaded] 500 [total] NA [frag] NA [frags] NA".toList =
      .ok { title := "T".toList, downloadedBytes := "500".toList,
            totalBytes := naTok, fragmentIndex := naTok,
            fragmentCount := naTok } ∧
    ({ initialMedia "id0" "url0" [] with percentage := 50 } :
      MediaState).percentage = 50 ∧
    (processParsed { initialMedia "id0" "url0" [] with percentage := 50 }
        { title := "T".toList, downloadedBytes := "500".toList,
          totalBytes := naTok, fragmentIndex := naTok,
          fragmentCount := naTok }).percentage = 0) ∧
    ((processLine (initialMedia "id1" "url1" [])
        "[byto] T [downloaded] 1000000000000001 [total] 3 [frag] NA [frags] NA".toList).percentage =
      33333333333333368 ∧
    (1000000000000001 * 100 / 3 : Int) = 33333333333333366) := by
  exact ⟨⟨by rfl, rfl, by rfl⟩, ⟨by rfl, by rfl⟩⟩

/-- Witness for claim_C1: downloaded 500 of total 1000 gives 50. -/
theorem claim_C1_witness :
    (processParsed (initialMedia "id0" "url0" [])
        { title := "T".toList, downloadedBytes := "500".toList,
          totalBytes := "1000".toList, fragmentIndex := naTok,
          fragmentCount := naTok }).percentage = 50 := by
  have h := (claim_C1 (initialMedia "id0" "url0" [])
      "[byto] T [downloaded] 500 [total] 1000 [frag] NA [frags] NA".toList
      { title := "T".toList, downloadedBytes := "500".toList,
        totalBytes := "1000".toList, fragmentIndex := naTok,
        fragmentCount := naTok } (by rfl)).1 (by decide)
  rw [h]
  decide

/-- C3 (confirmed): an exit caused by the cancellation token — whether
the token fired before the spawn (`Start` returns `context.Canceled`)
or during the run (`Wait` fails with the context cancelled) — yields
the distinguished cancelled signal, never a failure, and status Paused;
any other non-clean exit (a `Wait` error or a spawn failure with the
context alive) yields status Failed with the formatted error text
appended to the log; a clean exit yields status Completed. -/
theorem claim_C3 (m : MediaState) (e : ExitInfo) (w : List Char) :
    (e.ctxCancelled = true → (e.spawnError ≠ none ∨ e.waitError ≠ none) →
      (runItem m e).2 = RunResult.cancelled ∧
      (∀ msg, (runItem m e).2 ≠ RunResult.failure msg) ∧
      (runItem m e).1.status = DStatus.paused) ∧
    (e.spawnError = none → e.waitError = some w → e.ctxCancelled = false →
      (runItem m e).1.status = DStatus.failed ∧
      (runItem m e).2 = RunResult.failure w ∧
      ("Download failed: ".toList ++ w) ∈ (runItem m e).1.logs) ∧
    (e.spawnError = some w → e.ctxCancelled = false →
      (runItem m e).1.status = DStatus.failed ∧
      (runItem m e).2 = RunResult.failure w ∧
      ("Download failed: ".toList ++ w) ∈ (runItem m e).1.logs) ∧
    (e.spawnError = none → e.waitError = none →
      (runItem m e).1.status = DStatus.completed ∧
      (runItem m e).2 = RunResult.success) := by
  obtain ⟨se, we, cc⟩ := e
  refine ⟨?_, ?_, ?_, ?_⟩
  · intro h1 h2
    dsimp only at h1 h2
    subst h1
    cases se with
    | some msg => exact ⟨rfl, fun msg h => RunResult.noConfusion h, rfl⟩
    | none =>
      cases we with
      | some msg => exact ⟨rfl, fun msg h => RunResult.noConfusion h, rfl⟩
      | none =>
        rcases h2 with h | h
        · exact absurd rfl h
        · exact absurd rfl h
  · intro h1 h2 h3
    dsimp only at h1 h2 h3
    subst h1; subst h2; subst h3
    refine ⟨rfl, rfl, ?_⟩
    simp [runItem, executeFinish, workerHandle, setStatus, appendLog]
  · intro h1 h2
    dsimp only at h1 h2
    subst h1; subst h2
    refine ⟨rfl, rfl, ?_⟩
    simp [runItem, executeFinish, workerHandle, setStatus, appendLog]
  · intro h1 h2
    dsimp only at h1 h2
    subst h1; subst h2
    exact ⟨rfl, rfl⟩

/-- Witness for claim_C3 at concrete exit outcomes: a cancellation
firing before the spawn, a cancellation during the run, and an ordinary
failure. -/
theorem claim_C3_witness :
    (runItem (initialMedia "a" "b" [])
      { spawnError := some "context canceled".toList, waitError := none,
        ctxCancelled := true }).1.status = DStatus.paused ∧
    (runItem (initialMedia "a" "b" [])
      { spawnError := none, waitError := some "boom".toList,
        ctxCancelled := true }).2 = RunResult.cancelled ∧
    (runItem (initialMedia "a" "b" [])
      { spawnError := none, waitError := some "boom".toList,
        ctxCancelled := false }).1.status = DStatus.failed := by
  have h1 := (claim_C3 (initialMedia "a" "b" [])
    { spawnError := some "context canceled".toList, waitError := none,
      ctxCancelled := true } "x".toList).1 rfl
    (Or.inl (fun h => Option.noConfusion h))
  have h2 := (claim_C3 (initialMedia "a" "b" [])
    { spawnError := none, waitError := some "boom".toList,
      ctxCancelled := true } "boom".toList).1 rfl
    (Or.inr (fun h => Option.noConfusion h))
  have h3 := (claim_C3 (initialMedia "a" "b" [])
    { spawnError := none, waitError := some "boom".toList,
      ctxCancelled := false } "boom".toList).2.1 rfl rfl rfl
  exact ⟨h1.2.2, h2.1, h3.1⟩

/-- C10 (confirmed, implicit): for a started subprocess that exits
non-cleanly for a reason other than cancellation, the status is set to
Failed twice — once inside Execute and once by the worker — so a
registered status-change callback fires exactly two more times with
Failed than before the run. -/
theorem claim_C10 (m : MediaState) (e : ExitInfo) (w : List Char)
    (hcb : m.onStatusChange = true) (hs : e.spawnError = none)
    (hw : e.waitError = some w) (hc : e.ctxCancelled = false) :
    statusEventCount (runItem m e).1 DStatus.failed =
      statusEventCount m DStatus.failed + 2 := by
  obtain ⟨se, we, cc⟩ := e
  dsimp only at hs hw hc
  subst hs; subst hw; subst hc
  simp only [runItem, executeFinish, workerHandle, setStatus, appendLog,
    statusEventCount, hcb, List.filter_append, List.length_append,
    if_true]
  cases hr : m.onProgress <;> simp

/-- Witness for claim_C10 at a concrete failed run. -/
theorem claim_C10_witness :
    statusEventCount (runItem
      { initialMedia "a" "b" [] with onStatusChange := true }
      { spawnError := none, waitError := some "x".toList,
        ctxCancelled := false }).1 DStatus.failed =
    statusEventCount { initialMedia "a" "b" [] with onStatusChange := true }
      DStatus.failed + 2 :=
  claim_C10 _ _ "x".toList rfl rfl rfl rfl

/-- C4 (confirmed): a bulk start selects exactly the snapshot items whose
status is Pending, Failed or Paused, in their original snapshot order
(the job queue, hence FIFO dispatch, is that filtered list), and each
selected item receives a fresh cancellation token overwriting any
previous one: the i-th selected item gets token generation g + i, where
g is the first unused generation. -/
theorem claim_C4 (g : Nat) (snap : List MediaState) :
    (selectArm g snap).2 =
      armAll g (snap.filter (fun m => startable m.status)) ∧
    (selectArm g snap).2.map (fun m => m.id) =
      (snap.filter (fun m => startable m.status)).map (fun m => m.id) ∧
    (selectArm g snap).2.map (fun m => m.status) =
      (snap.filter (fun m => startable m.status)).map (fun m => m.status) ∧
    (∀ i mi, (selectArm g snap).2[i]? = some mi →
      mi.token = some (g + i)) := by
  have hjobs : (selectArm g snap).2 =
      armAll g (snap.filter (fun m => startable m.status)) := by
    rw [selectArm_eq]
  refine ⟨hjobs, ?_, ?_, ?_⟩
  · rw [hjobs]
    exact armAll_map (fun m => m.id) (fun m g => rfl) _ _
  · rw [hjobs]
    exact armAll_map (fun m => m.status) (fun m g => rfl) _ _
  · intro i mi hmi
    rw [hjobs] at hmi
    exact armAll_getElem _ _ _ _ hmi

/-- Witness for claim_C4 on a two-item snapshot (one startable, one
completed). -/
theorem claim_C4_witness :
    (selectArm 7 [initialMedia "a" "u" [],
        { initialMedia "b" "u" [] with status := DStatus.completed }]).2.map
        (fun m => m.id) = ["a"] ∧
    (armItem (initialMedia "a" "u" []) 7).token = some 7 := by
  have h := claim_C4 7 [initialMedia "a" "u" [],
    { initialMedia "b" "u" [] with status := DStatus.completed }]
  constructor
  · rw [h.2.1]
    rfl
  · exact h.2.2.2 0 (armItem (initialMedia "a" "u" []) 7) (by rfl)

/-- C8 (amended): every record state reachable through enqueueing, log
appending and the per-line progress processing has a percentage that is
either nonnegative or the implementation-defined out-of-range
float-to-int conversion result −2^63 (gc/amd64); the claimed interval
[0,100] fails on both sides (see the counterexample). -/
theorem claim_C8 (m : MediaState) (h : ReachableMedia m) :
    0 ≤ m.percentage ∨ m.percentage = -(2 ^ 63) := by
  induction h with
  | enqueue id url path => exact Or.inl (le_refl 0)
  | append m line hm ih => simpa [appendLog] using ih
  | line m raw hm ih =>
    simp only [processLine]
    by_cases hblank : goTrim raw = []
    · rw [if_pos hblank]
      exact ih
    · rw [if_neg hblank]
      cases hp : parseCore (goTrim raw) with
      | error msg => simpa [appendLog] using ih
      | ok r => exact processParsed_pct_cases _ _

set_option maxRecDepth 8192 in
/-- C8 counterexample: the claimed interval [0,100] fails on both
sides. A parsed line reporting more bytes downloaded than the total
produces a reachable record whose percentage is 200; a parsed line with
downloaded = 10^18 and total = 10 makes the intermediate float 10^19
exceed the int64 range, and the gc/amd64 conversion stores −2^63. -/
theorem claim_C8_counterexample :
    (ReachableMedia (processLine (initialMedia "i" "u" [])
      "[byto] T [downloaded] 200 [total] 100 [frag] NA [frags] NA".toList) ∧
    (processLine (initialMedia "i" "u" [])
      "[byto] T [downloaded] 200 [total] 100 [frag] NA [frags] NA".toList).percentage = 200) ∧
    (ReachableMedia (processLine (initialMedia "i" "u" [])
      "[byto] T [downloaded] 1000000000000000000 [total] 10 [frag] NA [frags] NA".toList) ∧
    (processLine (initialMedia "i" "u" [])
      "[byto] T [downloaded] 1000000000000000000 [total] 10 [frag] NA [frags] NA".toList).percentage =
      -(2 ^ 63)) := by
  exact ⟨⟨ReachableMedia.line _ _ (ReachableMedia.enqueue "i" "u" []),
      by rfl⟩,
    ⟨ReachableMedia.line _ _ (ReachableMedia.enqueue "i" "u" []),
      by rfl⟩⟩

/-- Witness for claim_C8 at a freshly enqueued record. -/
theorem claim_C8_witness :
    0 ≤ (initialMedia "w" "u" []).percentage ∨
      (initialMedia "w" "u" []).percentage = -(2 ^ 63) :=
  claim_C8 _ (ReachableMedia.enqueue "w" "u" [])

/-! ## Lemmas about the slice memory model -/

theorem getD_append_self {α : Type} (l : List α) (x d : α) :
    (l ++ [x]).getD l.length d = x := by
  rw [List.getD_eq_getElem?_getD, List.getElem?_append_right (le_refl _)]
  simp

theorem getD_set_self {α : Type} (l : List α) (i : Nat) (a d : α)
    (h : i < l.length) : (l.set i a).getD i d = a := by
  rw [List.getD_eq_getElem?_getD, List.getElem?_set_self h]
  rfl

theorem getD_set_ne {α : Type} (l : List α) (i j : Nat) (a d : α)
    (h : i ≠ j) : (l.set i a).getD j d = l.getD j d := by
  rw [List.getD_eq_getElem?_getD, List.getElem?_set_ne h,
    ← List.getD_eq_getElem?_getD]

theorem take_set_succ {α : Type} (l : List α) (n : Nat) (x : α)
    (h : n < l.length) : (l.set n x).take (n + 1) = l.take n ++ [x] := by
  rw [List.set_eq_take_append_cons_drop, if_pos h,
    List.take_append_eq_append_take]
  have h1 : (l.take n).length = n := by
    rw [List.length_take]
    omega
  rw [h1]
  have h2 : n + 1 - n = 1 := by omega
  rw [List.take_of_length_le (by omega), h2]
  rfl

theorem findIdx?_map {α β : Type} (f : α → β) (p : β → Bool) :
    ∀ (l : List α) (i : Nat),
      (l.map f).findIdx? p i = l.findIdx? (fun x => p (f x)) i := by
  intro l
  induction l with
  | nil => intro i; rfl
  | cons a as ih =>
    intro i
    rw [List.map_cons, List.findIdx?_cons, List.findIdx?_cons, ih]

theorem findIdx?_lt_length {α : Type} {p : α → Bool} :
    ∀ (l : List α) (j i : Nat), l.findIdx? p j = some i → i < j + l.length := by
  intro l
  induction l with
  | nil => intro j i h; simp [List.findIdx?] at h
  | cons a as ih =>
    intro j i h
    rw [List.findIdx?_cons] at h
    by_cases hp : p a = true
    · rw [if_pos hp] at h
      simp only [Option.some.injEq] at h
      subst h
      simp
    · rw [if_neg hp] at h
      have := ih (j + 1) i h
      simp only [List.length_cons]
      omega

theorem eraseIdx_map {α β : Type} (f : α → β) (l : List α) (i : Nat) :
    (l.map f).eraseIdx i = (l.eraseIdx i).map f := by
  rw [List.eraseIdx_eq_take_drop_succ, List.eraseIdx_eq_take_drop_succ,
    List.map_append, List.map_take, List.map_drop]

theorem arrays_length_writeArr (mem : Mem) (i : Nat) (a : List Nat) :
    (writeArr mem i a).arrays.length = mem.arrays.length := by
  simp [writeArr]

theorem arrays_length_allocArr (mem : Mem) (a : List Nat) :
    ((allocArr mem a).1).arrays.length = mem.arrays.length + 1 := by
  simp [allocArr]

theorem arrOf_writeArr_ne (mem : Mem) (i : Nat) (a : List Nat) (s : Slice)
    (h : s.arr ≠ i) : arrOf (writeArr mem i a) s = arrOf mem s := by
  unfold arrOf writeArr
  exact getD_set_ne _ _ _ _ _ (fun heq => h heq.symm)

theorem arrOf_writeArr_self (mem : Mem) (s : Slice) (a : List Nat)
    (h : s.arr < mem.arrays.length) :
    arrOf (writeArr mem s.arr a) s = a := by
  unfold arrOf writeArr
  exact getD_set_self _ _ _ _ h

theorem arrOf_allocArr (mem : Mem) (a : List Nat) (s : Slice)
    (h : s.arr < mem.arrays.length) :
    arrOf ((allocArr mem a).1) s = arrOf mem s := by
  unfold arrOf allocArr
  exact List.getD_append _ _ _ _ h

theorem arrOf_allocArr_new (mem : Mem) (a : List Nat) (n c : Nat) :
    arrOf ((allocArr mem a).1)
      { arr := mem.arrays.length, len := n, cap := c } = a := by
  unfold arrOf allocArr
  exact getD_append_self _ _ _

theorem view_length (mem : Mem) (s : Slice) (h : WFs mem s) :
    (view mem s).length = s.len := by
  unfold view
  rw [List.length_take]
  have := le_trans h.2.1 h.2.2
  omega

theorem goAppend_self (mem : Mem) (s : Slice) (x : Nat) (hwf : WFs mem s) :
    view (goAppend mem s x).1 (goAppend mem s x).2 = view mem s ++ [x] ∧
    WFs (goAppend mem s x).1 (goAppend mem s x).2 ∧
    (goAppend mem s x).1.recs = mem.recs := by
  obtain ⟨ha, hlc, hca⟩ := hwf
  by_cases hlt : s.len < s.cap
  · have hla : s.len < (arrOf mem s).length := lt_of_lt_of_le hlt hca
    unfold goAppend
    rw [if_pos hlt]
    have harr : arrOf (writeArr mem s.arr ((arrOf mem s).set s.len x))
        { s with len := s.len + 1 } = (arrOf mem s).set s.len x := by
      have : arrOf (writeArr mem s.arr ((arrOf mem s).set s.len x))
          { s with len := s.len + 1 } =
          arrOf (writeArr mem s.arr ((arrOf mem s).set s.len x)) s := rfl
      rw [this]
      exact arrOf_writeArr_self _ _ _ ha
    refine ⟨?_, ⟨?_, ?_, ?_⟩, rfl⟩
    · show ((arrOf (writeArr mem s.arr ((arrOf mem s).set s.len x))
        { s with len := s.len + 1 }).take (s.len + 1)) = _
      rw [harr, take_set_succ _ _ _ hla]
      rfl
    · show s.arr < (writeArr mem s.arr _).arrays.length
      rw [arrays_length_writeArr]
      exact ha
    · show s.len + 1 ≤ s.cap
      omega
    · show s.cap ≤ (arrOf (writeArr mem s.arr ((arrOf mem s).set s.len x))
        { s with len := s.len + 1 }).length
      rw [harr, List.length_set]
      exact hca
  · have hlen : (view mem s).length = s.len := view_length mem s ⟨ha, hlc, hca⟩
    unfold goAppend
    rw [if_neg hlt]
    have hcap2 : s.len + 1 ≤ (if s.cap = 0 then 1 else 2 * s.cap) := by
      by_cases h0 : s.cap = 0
      · rw [if_pos h0]; omega
      · rw [if_neg h0]; omega
    have harr : arrOf ((allocArr mem (view mem s ++ [x] ++
        List.replicate ((if s.cap = 0 then 1 else 2 * s.cap) - (s.len + 1)) 0)).1)
        { arr := mem.arrays.length, len := s.len + 1,
          cap := if s.cap = 0 then 1 else 2 * s.cap } =
        view mem s ++ [x] ++
          List.replicate ((if s.cap = 0 then 1 else 2 * s.cap) - (s.len + 1)) 0 :=
      arrOf_allocArr_new _ _ _ _
    have hl1 : (view mem s ++ [x]).length = s.len + 1 := by
      rw [List.length_append, hlen]
      rfl
    refine ⟨?_, ⟨?_, ?_, ?_⟩, rfl⟩
    · show (arrOf _ _).take (s.len + 1) = view mem s ++ [x]
      rw [harr, List.take_append_eq_append_take]
      rw [List.take_of_length_le (by omega), hl1]
      simp
    · show mem.arrays.length < ((allocArr _ _).1).arrays.length
      rw [arrays_length_allocArr]
      omega
    · exact hcap2
    · show (if s.cap = 0 then 1 else 2 * s.cap) ≤ (arrOf _ _).length
      rw [harr]
      have : (view mem s ++ [x] ++
          List.replicate ((if s.cap = 0 then 1 else 2 * s.cap) - (s.len + 1)) 0).length =
          s.len + 1 + ((if s.cap = 0 then 1 else 2 * s.cap) - (s.len + 1)) := by
        rw [List.length_append, hl1, List.length_replicate]
      rw [this]
      omega

theorem goAppend_frame (mem : Mem) (s : Slice) (x : Nat) (t : Slice)
    (hne : t.arr ≠ s.arr) (ht : WFs mem t) :
    view (goAppend mem s x).1 t = view mem t ∧
    WFs (goAppend mem s x).1 t ∧
    t.arr ≠ (goAppend mem s x).2.arr ∧
    (goAppend mem s x).1.recs = mem.recs := by
  obtain ⟨hta, htl, htc⟩ := ht
  by_cases hlt : s.len < s.cap
  · unfold goAppend
    rw [if_pos hlt]
    have harr : arrOf (writeArr mem s.arr ((arrOf mem s).set s.len x)) t =
        arrOf mem t := arrOf_writeArr_ne _ _ _ _ hne
    refine ⟨?_, ⟨?_, htl, ?_⟩, hne, rfl⟩
    · show (arrOf _ t).take t.len = _
      rw [harr]
      rfl
    · rw [arrays_length_writeArr]
      exact hta
    · rw [harr]
      exact htc
  · unfold goAppend
    rw [if_neg hlt]
    have harr : arrOf ((allocArr mem (view mem s ++ [x] ++
        List.replicate ((if s.cap = 0 then 1 else 2 * s.cap) - (s.len + 1)) 0)).1) t =
        arrOf mem t := arrOf_allocArr _ _ _ hta
    refine ⟨?_, ⟨?_, htl, ?_⟩, ?_, rfl⟩
    · show (arrOf _ t).take t.len = _
      rw [harr]
      rfl
    · rw [arrays_length_allocArr]
      omega
    · rw [harr]
      exact htc
    · show t.arr ≠ mem.arrays.length
      omega

theorem removeAt_self (mem : Mem) (s : Slice) (i : Nat) (hwf : WFs mem s)
    (hi : i < s.len) :
    view (removeAt mem s i).1 (removeAt mem s i).2 =
      (view mem s).eraseIdx i ∧
    WFs (removeAt mem s i).1 (removeAt mem s i).2 ∧
    (removeAt mem s i).1.recs = mem.recs := by
  obtain ⟨ha, hlc, hca⟩ := hwf
  have hla : s.len ≤ (arrOf mem s).length := le_trans hlc hca
  have harr : arrOf (removeAt mem s i).1 (removeAt mem s i).2 =
      (arrOf mem s).take i ++
        ((arrOf mem s).drop (i + 1)).take (s.len - i - 1) ++
        (arrOf mem s).drop (s.len - 1) :=
    arrOf_writeArr_self mem { s with len := s.len - 1 }
      ((arrOf mem s).take i ++
        ((arrOf mem s).drop (i + 1)).take (s.len - i - 1) ++
        (arrOf mem s).drop (s.len - 1)) ha
  have hlen1 : ((arrOf mem s).take i).length = i := by
    rw [List.length_take]
    omega
  have hlen2 : (((arrOf mem s).drop (i + 1)).take (s.len - i - 1)).length =
      s.len - i - 1 := by
    rw [List.length_take, List.length_drop]
    omega
  refine ⟨?_, ⟨?_, ?_, ?_⟩, rfl⟩
  · show (arrOf (removeAt mem s i).1 (removeAt mem s i).2).take (s.len - 1) = _
    rw [harr, List.take_append_eq_append_take]
    have hl12 : ((arrOf mem s).take i ++
        ((arrOf mem s).drop (i + 1)).take (s.len - i - 1)).length =
        s.len - 1 := by
      rw [List.length_append, hlen1, hlen2]
      omega
    rw [List.take_of_length_le (le_of_eq hl12), hl12, Nat.sub_self,
      List.take_zero, List.append_nil]
    unfold view
    rw [List.eraseIdx_eq_take_drop_succ, List.take_take, List.drop_take]
    have e1 : i ⊓ s.len = i := by omega
    have e2 : s.len - (i + 1) = s.len - i - 1 := by omega
    rw [e1, e2]
  · show s.arr < (removeAt mem s i).1.arrays.length
    show s.arr < (writeArr mem s.arr
      ((arrOf mem s).take i ++
        ((arrOf mem s).drop (i + 1)).take (s.len - i - 1) ++
        (arrOf mem s).drop (s.len - 1))).arrays.length
    rw [arrays_length_writeArr]
    exact ha
  · show s.len - 1 ≤ s.cap
    omega
  · show s.cap ≤ (arrOf (removeAt mem s i).1 (removeAt mem s i).2).length
    rw [harr]
    simp only [List.length_append, hlen1, hlen2, List.length_drop]
    omega

theorem removeAt_frame (mem : Mem) (s : Slice) (i : Nat) (t : Slice)
    (hne : t.arr ≠ s.arr) (ht : WFs mem t) :
    view (removeAt mem s i).1 t = view mem t ∧
    WFs (removeAt mem s i).1 t ∧
    t.arr ≠ (removeAt mem s i).2.arr ∧
    (removeAt mem s i).1.recs = mem.recs := by
  obtain ⟨hta, htl, htc⟩ := ht
  have harr : arrOf (removeAt mem s i).1 t = arrOf mem t :=
    arrOf_writeArr_ne mem s.arr
      ((arrOf mem s).take i ++
        ((arrOf mem s).drop (i + 1)).take (s.len - i - 1) ++
        (arrOf mem s).drop (s.len - 1)) t hne
  refine ⟨?_, ⟨?_, htl, ?_⟩, hne, rfl⟩
  · show (arrOf (removeAt mem s i).1 t).take t.len = _
    rw [harr]
    rfl
  · show t.arr < (removeAt mem s i).1.arrays.length
    show t.arr < (writeArr mem s.arr
      ((arrOf mem s).take i ++
        ((arrOf mem s).drop (i + 1)).take (s.len - i - 1) ++
        (arrOf mem s).drop (s.len - 1))).arrays.length
    rw [arrays_length_writeArr]
    exact hta
  · rw [harr]
    exact htc

theorem getAll_spec (st : QState) (h : WFs st.mem st.q) :
    (getAll st).1.q = st.q ∧
    view (getAll st).1.mem st.q = view st.mem st.q ∧
    view (getAll st).1.mem (getAll st).2 = view st.mem st.q ∧
    Indep (getAll st).1 (getAll st).2 ∧
    (getAll st).1.mem.recs = st.mem.recs := by
  obtain ⟨ha, hlc, hca⟩ := h
  have hlen : (view st.mem st.q).length = st.q.len :=
    view_length _ _ ⟨ha, hlc, hca⟩
  unfold getAll
  have hq : arrOf ((allocArr st.mem (view st.mem st.q)).1) st.q =
      arrOf st.mem st.q := arrOf_allocArr _ _ _ ha
  have hsnap : arrOf ((allocArr st.mem (view st.mem st.q)).1)
      { arr := st.mem.arrays.length, len := st.q.len,
        cap := st.q.len } = view st.mem st.q := arrOf_allocArr_new _ _ _ _
  refine ⟨rfl, ?_, ?_, ⟨⟨?_, hlc, ?_⟩, ⟨?_, le_refl _, ?_⟩, ?_⟩, rfl⟩
  · show (arrOf _ st.q).take st.q.len = _
    rw [hq]
    rfl
  · show (arrOf _ _).take st.q.len = _
    rw [hsnap]
    exact List.take_of_length_le (le_of_eq hlen)
  · show st.q.arr < ((allocArr st.mem (view st.mem st.q)).1).arrays.length
    rw [arrays_length_allocArr]
    omega
  · rw [hq]
    exact hca
  · show st.mem.arrays.length < _
    rw [arrays_length_allocArr]
    omega
  · rw [hsnap, hlen]
  · show st.mem.arrays.length ≠ st.q.arr
    omega

theorem refId_recs_eq {mem1 mem2 : Mem} (h : mem1.recs = mem2.recs) :
    refId mem1 = refId mem2 := by
  funext r
  unfold refId
  rw [h]

theorem applyOp_indep (st : QState) (snap : Slice) (op : QOp)
    (h : Indep st snap) :
    Indep (applyOp st op) snap ∧
    view (applyOp st op).mem snap = view st.mem snap := by
  obtain ⟨hq, hs, hne⟩ := h
  cases op with
  | add id =>
    simp only [applyOp, queueAdd]
    by_cases hid : refId
        { arrays := st.mem.arrays, recs := st.mem.recs ++ [id] }
        st.mem.recs.length = ""
    · rw [if_pos hid]
      exact ⟨⟨hq, hs, hne⟩, rfl⟩
    · rw [if_neg hid]
      have hq2 : WFs
          { arrays := st.mem.arrays, recs := st.mem.recs ++ [id] } st.q := hq
      have hs2 : WFs
          { arrays := st.mem.arrays, recs := st.mem.recs ++ [id] } snap := hs
      obtain ⟨hv, hwt, hne2, hrecs⟩ := goAppend_frame
        { arrays := st.mem.arrays, recs := st.mem.recs ++ [id] } st.q
        st.mem.recs.length snap hne hs2
      obtain ⟨-, hwq, -⟩ := goAppend_self
        { arrays := st.mem.arrays, recs := st.mem.recs ++ [id] } st.q
        st.mem.recs.length hq2
      exact ⟨⟨hwq, hwt, hne2⟩, hv⟩
  | remove id =>
    simp only [applyOp, queueRemove]
    cases hidx : (view st.mem st.q).findIdx?
        (fun r => refId st.mem r = id) with
    | none => exact ⟨⟨hq, hs, hne⟩, rfl⟩
    | some i =>
      have hi : i < st.q.len := by
        have := findIdx?_lt_length _ _ _ hidx
        rw [view_length _ _ hq] at this
        omega
      obtain ⟨hv, hwt, hne2, hrecs⟩ := removeAt_frame st.mem st.q i snap hne hs
      obtain ⟨-, hwq, -⟩ := removeAt_self st.mem st.q i hq hi
      exact ⟨⟨hwq, hwt, hne2⟩, hv⟩

theorem runOps_indep :
    ∀ (ops : List QOp) (st : QState) (snap : Slice), Indep st snap →
      Indep (runOps st ops) snap ∧
      view (runOps st ops).mem snap = view st.mem snap := by
  intro ops
  induction ops with
  | nil => intro st snap h; exact ⟨h, rfl⟩
  | cons op ops ih =>
    intro st snap h
    obtain ⟨h1, h2⟩ := applyOp_indep st snap op h
    obtain ⟨h3, h4⟩ := ih (applyOp st op) snap h1
    exact ⟨h3, by rw [runOps, h4, h2]⟩

theorem applyOp_ids (st : QState) (op : QOp) (h : QInv st) :
    QInv (applyOp st op) ∧
    stIds (applyOp st op) = specStep (stIds st) op := by
  obtain ⟨hq, hb⟩ := h
  cases op with
  | add id =>
    simp only [applyOp, queueAdd]
    have hrid : refId { arrays := st.mem.arrays, recs := st.mem.recs ++ [id] }
        st.mem.recs.length = id := getD_append_self _ _ _
    have hids2 : (view st.mem st.q).map
        (refId { arrays := st.mem.arrays, recs := st.mem.recs ++ [id] }) =
        stIds st := by
      unfold stIds
      apply List.map_congr_left
      intro r hr
      unfold refId
      exact List.getD_append _ _ _ _ (hb r hr)
    by_cases hid0 : id = ""
    · rw [if_pos (by rw [hrid]; exact hid0)]
      refine ⟨⟨hq, ?_⟩, ?_⟩
      · intro r hr
        have := hb r hr
        show r < (st.mem.recs ++ [id]).length
        rw [List.length_append]
        omega
      · show (view st.mem st.q).map
          (refId { arrays := st.mem.arrays, recs := st.mem.recs ++ [id] }) =
          specStep (stIds st) (QOp.add id)
        rw [hids2]
        simp [specStep, hid0]
    · rw [if_neg (by rw [hrid]; exact hid0)]
      have hq2 : WFs
          { arrays := st.mem.arrays, recs := st.mem.recs ++ [id] } st.q := hq
      obtain ⟨hv, hwq, hrecs⟩ := goAppend_self
        { arrays := st.mem.arrays, recs := st.mem.recs ++ [id] } st.q
        st.mem.recs.length hq2
      have hrf : refId (goAppend
          { arrays := st.mem.arrays, recs := st.mem.recs ++ [id] }
          st.q st.mem.recs.length).1 =
          refId { arrays := st.mem.arrays, recs := st.mem.recs ++ [id] } :=
        refId_recs_eq hrecs
      constructor
      · refine ⟨hwq, ?_⟩
        intro r hr
        rw [hv] at hr
        have hlrec : (goAppend
            { arrays := st.mem.arrays, recs := st.mem.recs ++ [id] }
            st.q st.mem.recs.length).1.recs.length =
            st.mem.recs.length + 1 := by
          rw [hrecs]
          simp
        rw [hlrec]
        rcases List.mem_append.mp hr with hr | hr
        · have := hb r hr
          omega
        · simp only [List.mem_singleton] at hr
          subst hr
          omega
      · show (view _ _).map (refId _) = _
        have hveq : view
            { arrays := st.mem.arrays, recs := st.mem.recs ++ [id] } st.q =
            view st.mem st.q := rfl
        rw [hv, hrf, List.map_append, hveq, hids2]
        show stIds st ++ [refId
          { arrays := st.mem.arrays, recs := st.mem.recs ++ [id] }
          st.mem.recs.length] = _
        rw [hrid]
        simp [specStep, hid0]
  | remove id =>
    simp only [applyOp, queueRemove]
    cases hidx : (view st.mem st.q).findIdx?
        (fun r => refId st.mem r = id) with
    | none =>
      refine ⟨⟨hq, hb⟩, ?_⟩
      show stIds st = specStep (stIds st) (QOp.remove id)
      have hmapped : (stIds st).findIdx? (fun s => s = id) = none := by
        unfold stIds
        rw [findIdx?_map]
        exact hidx
      simp only [specStep, hmapped]
    | some i =>
      have hi : i < st.q.len := by
        have := findIdx?_lt_length _ _ _ hidx
        rw [view_length _ _ hq] at this
        omega
      obtain ⟨hv, hwq, hrecs⟩ := removeAt_self st.mem st.q i hq hi
      have hrf : refId (removeAt st.mem st.q i).1 = refId st.mem :=
        refId_recs_eq hrecs
      have hmapped : (stIds st).findIdx? (fun s => s = id) = some i := by
        unfold stIds
        rw [findIdx?_map]
        exact hidx
      constructor
      · refine ⟨hwq, ?_⟩
        intro r hr
        rw [hv] at hr
        have := hb r (List.eraseIdx_subset _ _ hr)
        show r < (removeAt st.mem st.q i).1.recs.length
        rw [hrecs]
        exact this
      · show (view _ _).map (refId _) = _
        rw [hv, hrf, ← eraseIdx_map]
        show (stIds st).eraseIdx i = _
        simp only [specStep, hmapped]

theorem runOps_ids :
    ∀ (ops : List QOp) (st : QState), QInv st →
      QInv (runOps st ops) ∧
      stIds (runOps st ops) = ops.foldl specStep (stIds st) := by
  intro ops
  induction ops with
  | nil => intro st h; exact ⟨h, rfl⟩
  | cons op ops ih =>
    intro st h
    obtain ⟨h1, h2⟩ := applyOp_ids st op h
    obtain ⟨h3, h4⟩ := ih (applyOp st op) h1
    refine ⟨by rw [runOps]; exact h3, ?_⟩
    rw [runOps, h4, h2]
    rfl

theorem initialQ_inv : QInv initialQ := by
  refine ⟨⟨by decide, by decide, by decide⟩, ?_⟩
  intro r hr
  simp [view, arrOf, initialQ] at hr

theorem initialQ_ids : stIds initialQ = [] := rfl

/-- C5 (confirmed): GetAll returns an independent snapshot.  Any later
sequence of Add/Remove operations on the queue leaves a previously
returned snapshot's contents untouched; appending to a returned snapshot
(or removing from it in place) leaves the queue, and the result of a
subsequent GetAll, unchanged; and from a fresh queue, GetAll always
reflects insertion order minus removals. -/
theorem claim_C5 :
    (∀ (st : QState) (ops : List QOp), WFs st.mem st.q →
      view (runOps (getAll st).1 ops).mem (getAll st).2 =
        view st.mem st.q) ∧
    (∀ (st : QState) (x : Nat), WFs st.mem st.q →
      view (goAppend (getAll st).1.mem (getAll st).2 x).1 st.q =
        view st.mem st.q ∧
      view (getAll (QState.mk
            (goAppend (getAll st).1.mem (getAll st).2 x).1 st.q)).1.mem
        (getAll (QState.mk
            (goAppend (getAll st).1.mem (getAll st).2 x).1 st.q)).2 =
        view st.mem st.q) ∧
    (∀ (st : QState) (i : Nat), WFs st.mem st.q →
      view (removeAt (getAll st).1.mem (getAll st).2 i).1 st.q =
        view st.mem st.q) ∧
    (∀ ops : List QOp, stIds (runOps initialQ ops) = specFold ops) := by
  refine ⟨?_, ?_, ?_, ?_⟩
  · intro st ops hwf
    obtain ⟨hqe, hvq, hvs, hind, hrecs⟩ := getAll_spec st hwf
    have h := runOps_indep ops (getAll st).1 (getAll st).2 hind
    rw [h.2, hvs]
  · intro st x hwf
    obtain ⟨hqe, hvq, hvs, hind, hrecs⟩ := getAll_spec st hwf
    obtain ⟨hwq, hws, hne⟩ := hind
    have hq2 : WFs (getAll st).1.mem st.q := hwq
    have hframe := goAppend_frame (getAll st).1.mem (getAll st).2 x st.q
      (fun heq => hne heq.symm) hq2
    have hvq2 : view (goAppend (getAll st).1.mem (getAll st).2 x).1 st.q =
        view st.mem st.q := by
      rw [hframe.1]
      exact hvq
    refine ⟨hvq2, ?_⟩
    have hspec := getAll_spec
      (QState.mk (goAppend (getAll st).1.mem (getAll st).2 x).1 st.q)
      hframe.2.1
    rw [hspec.2.2.1]
    exact hvq2
  · intro st i hwf
    obtain ⟨hqe, hvq, hvs, hind, hrecs⟩ := getAll_spec st hwf
    obtain ⟨hwq, hws, hne⟩ := hind
    have hframe := removeAt_frame (getAll st).1.mem (getAll st).2 i st.q
      (fun heq => hne heq.symm) hwq
    rw [hframe.1]
    exact hvq
  · intro ops
    have h := runOps_ids ops initialQ initialQ_inv
    rw [h.2, initialQ_ids]
    rfl

/-- Witness for claim_C5: a snapshot of a two-element queue is unchanged
by a later add and remove. -/
theorem claim_C5_witness :
    view (runOps (getAll (runOps initialQ [QOp.add "a", QOp.add "b"])).1
        [QOp.add "c", QOp.remove "a"]).mem
      (getAll (runOps initialQ [QOp.add "a", QOp.add "b"])).2 =
      view (runOps initialQ [QOp.add "a", QOp.add "b"]).mem
        (runOps initialQ [QOp.add "a", QOp.add "b"]).q :=
  claim_C5.1 (runOps initialQ [QOp.add "a", QOp.add "b"])
    [QOp.add "c", QOp.remove "a"] ⟨by decide, by decide, by decide⟩

/-- C9 (confirmed): Remove removes the first record whose id matches; for
an id with no matching record it returns the NotFound error and the
queue is unchanged. -/
theorem claim_C9 (st : QState) (id : String) :
    ((∀ r ∈ view st.mem st.q, ¬ refId st.mem r = id) →
      queueRemove st id = .error "media with given ID not found" ∧
      applyOp st (QOp.remove id) = st) ∧
    (∀ i, (view st.mem st.q).findIdx? (fun r => refId st.mem r = id) =
        some i → WFs st.mem st.q →
      ∃ st2, queueRemove st id = .ok st2 ∧
        view st2.mem st2.q = (view st.mem st.q).eraseIdx i ∧
        st2.mem.recs = st.mem.recs) := by
  constructor
  · intro h
    have hnone : (view st.mem st.q).findIdx?
        (fun r => refId st.mem r = id) = none := by
      rw [List.findIdx?_eq_none_iff]
      intro x hx
      simp [h x hx]
    constructor
    · unfold queueRemove
      rw [hnone]
    · simp only [applyOp, queueRemove]
      rw [hnone]
  · intro i hidx hwf
    have hi : i < st.q.len := by
      have := findIdx?_lt_length _ _ _ hidx
      rw [view_length _ _ hwf] at this
      omega
    obtain ⟨hv, hwq, hrecs⟩ := removeAt_self st.mem st.q i hwf hi
    refine ⟨{ mem := (removeAt st.mem st.q i).1,
              q := (removeAt st.mem st.q i).2 }, ?_, hv, hrecs⟩
    unfold queueRemove
    rw [hidx]

/-- Witness for claim_C9 on a one-element queue: removing an absent id
fails and changes nothing; removing the present id erases it. -/
theorem claim_C9_witness :
    queueRemove (runOps initialQ [QOp.add "a"]) "zzz" =
      .error "media with given ID not found" ∧
    ∃ st2, queueRemove (runOps initialQ [QOp.add "a"]) "a" = .ok st2 ∧
      view st2.mem st2.q =
        (view (runOps initialQ [QOp.add "a"]).mem
          (runOps initialQ [QOp.add "a"]).q).eraseIdx 0 ∧
      st2.mem.recs = (runOps initialQ [QOp.add "a"]).mem.recs := by
  have h := claim_C9 (runOps initialQ [QOp.add "a"])
  exact ⟨((h "zzz").1 (by decide)).1,
    (h "a").2 0 (by decide) ⟨by decide, by decide, by decide⟩⟩

end Byto
